import Mathlib

/-!
Verification development for the sandwich middleware toolkit.

Part 1 models the dependency-injected function chain of
`src/chain/chain.go` (package `chain`): construction-time validation
(`Arg`, `Set`, `SetAs`, `Then`, `OnErr`, `Defer`), and the executor
(`Run`, `processRunArgs`, `call`, `wrapPanic`).

Part 2 models the path-pattern router of the `sandwich` package
(`mux.Register`, `mux.Match`, `router.match`, `router.ServeHTTP`).

Modelling conventions:
* Go `reflect.Type` handles become the opaque `Ty` (identity comparison,
  with the kind information the code branches on).  `reflect.CanConvert`
  is modelled as type identity and `Implements` is an explicit relation
  parameter where needed.
* Go values become `Val`; a Go `nil` argument to `Run` is `Option.none`.
* Go maps keyed by types become association lists with first-match
  lookup and in-place overwrite, mirroring map-assignment semantics.
* A Go panic that the code recovers is modelled in the result value; a
  Go panic that no `recover` guards (the "Cannot inject" check in
  `Func.call` runs before its `defer`/`recover` is installed, and slice
  indexing in the router) is modelled as an explicit `panicked` outcome.
* Handlers call out to `runtime.FuncForPC` for name/file/line; the model
  keeps only the name.  `PanicError.RawStack` (a raw goroutine dump) is
  omitted; `Val` and `MiddlewareStack` are kept.
-/

namespace Chain

/-- Kind of a type handle, as far as the chain code inspects it
(`reflect.Kind` checks for `Interface` and `Ptr`). -/
inductive TyKind where
  | iface
  | ptr
  | basic
deriving DecidableEq, Repr

/-- An opaque type handle: two handles are the same Go type iff they are
equal.  Mirrors `reflect.Type` identity semantics. -/
structure Ty where
  id : Nat
  kind : TyKind
deriving DecidableEq, Repr

/-- The built-in `error` interface type (`var errorType = reflect.TypeOf((*error)(nil)).Elem()`). -/
def errorType : Ty := ⟨0, .iface⟩

mutual
/-- A runtime value.  `nilOf t` is the zero value of an interface or
pointer type `t` (`reflect.Zero`/`reflect.New(t).Elem()`), `prim t n` is
an arbitrary non-nil concrete value of type `t`, and `errv e` is a
non-nil value of the `error` interface type. -/
inductive Val where
  | nilOf (t : Ty)
  | prim (t : Ty) (n : Nat)
  | errv (e : GoErr)

/-- A non-nil Go error as the chain produces or transports it:
either an ordinary error returned by a handler, or a `PanicError`
(`chain.PanicError`) carrying the panicked value `Val` and the
middleware stack (names, most recent first).  The `RawStack` string of
the Go struct is a runtime artifact and is not modelled. -/
inductive GoErr where
  | mkErr (n : Nat)
  | panicErr (pv : Val) (mwStack : List String)
end

/-- The static type of a value (`reflect.Value.Type`). -/
def Val.typeOf : Val → Ty
  | .nilOf t => t
  | .prim t _ => t
  | .errv _ => errorType

/-- Nil-ness of a value (`reflect.Value.IsNil`, used only on
`error`-typed values by the executor). -/
def Val.isNil : Val → Bool
  | .nilOf _ => true
  | .prim _ _ => false
  | .errv _ => false

/-- Result of invoking a handler body: a normal return with its output
values, or a panic with the panicked value. -/
inductive HRes where
  | ret (vals : List Val)
  | panics (v : Val)

/-- A Go function value together with its reflected signature: the
parameter types (`Type.In`), output types (`Type.Out`), the
fully-qualified name (`runtime.FuncForPC(...).Name()`), and its
behavior. -/
structure HFunc where
  name : String
  ins : List Ty
  outs : List Ty
  body : List Val → HRes

/-- A handler body is well formed when a normal return produces exactly
the declared output types in order.  Go's `reflect.Value.Call`
guarantees this for every function value, so it is a standing
hypothesis on model handlers rather than something the code checks. -/
def HFunc.WF (f : HFunc) : Prop :=
  ∀ vals outs, f.body vals = .ret outs → outs.map Val.typeOf = f.outs

/-- One step of a chain (`chain.step`): the `stepType` tag plus the
fields actually used for that tag. -/
inductive Step where
  | arg (t : Ty)
  | value (v : Val) (t : Ty)
  | pre (f : HFunc)
  | post (f : HFunc)
  | errh (f : HFunc)

/-- `chain.Func`: an immutable list of steps. -/
structure Func where
  steps : List Step

/-- The per-run type-to-value map (`map[reflect.Type]reflect.Value`),
as an association list with map-assignment overwrite semantics. -/
abbrev Data := List (Ty × Val)

/-- Map assignment `d[t] = v`. -/
def Data.set : Data → Ty → Val → Data
  | [], t, v => [(t, v)]
  | (a, b) :: rest, t, v =>
    if a = t then (t, v) :: rest else (a, b) :: Data.set rest t v

/-- Map lookup `d[t]`; `none` plays the role of the invalid
`reflect.Value{}` a Go map returns for an absent key. -/
def Data.get : Data → Ty → Option Val
  | [], _ => none
  | (a, b) :: rest, t => if a = t then some b else Data.get rest t

/-- Construction-time failure (`panicf` sites in chain.go, modelled as
structured errors carrying the data interpolated into the message). -/
inductive CErr where
  | missingType (fnName : String) (argPos : Nat) (t : Ty)
  | nilSet
  | notIfacePtr (t : Ty)
  | notImplements (concrete iface : Ty)
  | hasOutputs (fnName : String)
deriving DecidableEq, Repr

/-- `Func.typesAvailable`: the types producible by the steps so far —
`ARG` declared types, `VALUE` runtime and declared types, and every
output type of a `PRE` handler; `POST`/`ERROR` handlers contribute
nothing.  The Go map of types becomes a list queried by membership. -/
def Func.typesAvailable (c : Func) : List Ty :=
  c.steps.foldl
    (fun m s =>
      match s with
      | .arg t => m ++ [t]
      | .value v t => m ++ [v.typeOf, t]
      | .pre f => m ++ f.outs
      | .post _ => m
      | .errh _ => m)
    []

/-- The parameter-availability scan of `checkCanCall`: walk the
parameter types in order and report the first one not in the available
set (the Go version then renders candidates/suggestions into the
message; the model keeps the function name, position and type). -/
def checkArgsFrom (available : List Ty) (fnName : String) :
    List Ty → Nat → Option CErr
  | [], _ => none
  | t :: ts, i =>
    if t ∈ available then checkArgsFrom available fnName ts (i + 1)
    else some (.missingType fnName (i + 1) t)

/-- Clone-and-extend (`Func.with`; `with` is a Lean keyword). -/
def Func.withSteps (c : Func) (steps : List Step) : Func :=
  ⟨c.steps ++ steps⟩

/-- `Func.Arg`.  The Go API takes a value of the type, or a pointer to
an interface, and registers the pointed-to interface type in the latter
case; the model takes the resulting type handle directly. -/
def Func.Arg (c : Func) (t : Ty) : Func :=
  c.withSteps [.arg t]

/-- `Func.Set`: an immediate value; `Set(nil)` is rejected. -/
def Func.Set (c : Func) (value : Option Val) : Except CErr Func :=
  match value with
  | none => .error .nilSet
  | some v => .ok (c.withSteps [.value v v.typeOf])

/-- `Func.SetAs`: an immediate value provided as an interface type.
`impl` abstracts `reflect.Type.Implements`; a type always implements
itself.  The Go argument is a pointer to the interface and the code
rejects anything else; the model takes the interface type handle and
keeps that kind check.  A nil value is coerced to the typed nil of the
interface. -/
def Func.SetAs (impl : Ty → Ty → Bool) (c : Func) (value : Option Val)
    (ifaceTy : Ty) : Except CErr Func :=
  if ifaceTy.kind ≠ .iface then .error (.notIfacePtr ifaceTy)
  else
    let val := match value with
      | none => Val.nilOf ifaceTy
      | some v => v
    if val.typeOf = ifaceTy ∨ impl val.typeOf ifaceTy then
      .ok (c.withSteps [.value val ifaceTy])
    else .error (.notImplements val.typeOf ifaceTy)

/-- The handler loop of `Func.Then`: validate each handler against the
running available set, then make its outputs available to the
remaining handlers of the same call. -/
def thenLoop (available : List Ty) : List HFunc → Except CErr (List Step)
  | [] => .ok []
  | f :: fs =>
    match checkArgsFrom available f.name f.ins 0 with
    | some e => .error e
    | none =>
      match thenLoop (available ++ f.outs) fs with
      | .error e => .error e
      | .ok rest => .ok (Step.pre f :: rest)

/-- `Func.Then`: append PRE handlers, validating each parameter list
against the available set (construction panics become `Except.error`). -/
def Func.Then (c : Func) (handlers : List HFunc) : Except CErr Func :=
  match thenLoop c.typesAvailable handlers with
  | .error e => .error e
  | .ok steps => .ok (c.withSteps steps)

/-- `Func.OnErr`: append an error handler; `error` is additionally
treated as available, and the handler may not have return values. -/
def Func.OnErr (c : Func) (f : HFunc) : Except CErr Func :=
  match checkArgsFrom (errorType :: c.typesAvailable) f.name f.ins 0 with
  | some e => .error e
  | none =>
    if f.outs = [] then .ok (c.withSteps [.errh f])
    else .error (.hasOutputs f.name)

/-- `Func.Defer`: append a deferred handler; same checks as `OnErr`. -/
def Func.Defer (c : Func) (f : HFunc) : Except CErr Func :=
  match checkArgsFrom (errorType :: c.typesAvailable) f.name f.ins 0 with
  | some e => .error e
  | none =>
    if f.outs = [] then .ok (c.withSteps [.post f])
    else .error (.hasOutputs f.name)

/-- `chain.DefaultErrorHandler`, at its package default value
`func(err error) { panic(err) }`. -/
def defaultErrorHandler : HFunc :=
  ⟨"chain.DefaultErrorHandler", [errorType], [],
    fun vals => .panics (vals.headD (.nilOf errorType))⟩

/-- One recorded invocation: the executed step's function name and the
input values it was handed.  The list of these is both the
`stack []step` that `Run` threads through `call` and the observable
execution trace. -/
structure CallRec where
  name : String
  args : List Val

/-- `wrapPanic`'s middleware stack: the executed steps, most recent
first (`mwStack[i] = steps[N-i-1]`). -/
def mwStackOf (stack : List CallRec) : List String :=
  (stack.map CallRec.name).reverse

/-- Resolve a handler's inputs from the data map (`in[i] = data[t.In(i)]`),
reporting the first type whose lookup is invalid — in the Go code that
case is a `panicf` that fires before the `defer`/`recover` is
installed, so it escapes `Run`. -/
def resolveIns (d : Data) : List Ty → Except Ty (List Val)
  | [] => .ok []
  | t :: ts =>
    match Data.get d t with
    | none => .error t
    | some v =>
      match resolveIns d ts with
      | .error t' => .error t'
      | .ok vs => .ok (v :: vs)

/-- Bind each output value under its static type
(`data[val.Type()] = val`, in output order). -/
def bindOuts (outs : List Val) (d : Data) : Data :=
  outs.foldl (fun d v => Data.set d v.typeOf v) d

/-- Result of `Func.call`: either the updated data map and stack, or an
unrecovered "Cannot inject" panic (carrying the stack at that moment
and the missing type). -/
inductive CallOut where
  | ok (d : Data) (stack : List CallRec)
  | inject (stack : List CallRec) (t : Ty)

/-- `Func.call`: resolve inputs (missing input panics unrecovered),
push the step onto the stack, invoke.  A normal return binds every
output by its static type; a panic is recovered by the deferred
`wrapPanic` and stored as the pending `error` as a `PanicError` made of
the panicked value and the middleware stack. -/
def callStep (f : HFunc) (d : Data) (stack : List CallRec) : CallOut :=
  match resolveIns d f.ins with
  | .error t => .inject stack t
  | .ok vals =>
    let stack' := stack ++ [⟨f.name, vals⟩]
    match f.body vals with
    | .ret outs => .ok (bindOuts outs d) stack'
    | .panics v =>
      .ok (Data.set d errorType (.errv (.panicErr v (mwStackOf stack')))) stack'

/-- The pending-error test
`errorVal := data[errorType]; errorVal.IsValid() && !errorVal.IsNil()`. -/
def hasPendingError (d : Data) : Bool :=
  match Data.get d errorType with
  | some v => !v.isNil
  | none => false

/-- State threaded through the main execution pass of `Run`: the data
map, collected POST steps, active error handler and executed stack. -/
structure MainState where
  d : Data
  posts : List HFunc
  errH : HFunc
  stack : List CallRec

/-- Result of the main pass: normal-or-aborted completion with the
final state, or an unrecovered inject panic. -/
inductive MainOut where
  | inject (stack : List CallRec) (t : Ty)
  | done (st : MainState)

/-- The labelled `execution` loop of `Func.Run`: `ARG` steps were
handled during arg processing; `VALUE` binds under runtime and declared
type; `PRE` is invoked and the loop breaks if a pending error exists
afterwards; `POST` is collected; `ERR` becomes the active handler. -/
def mainLoop : List Step → MainState → MainOut
  | [], st => .done st
  | s :: rest, st =>
    match s with
    | .arg _ => mainLoop rest st
    | .value v t =>
      mainLoop rest { st with d := Data.set (Data.set st.d v.typeOf v) t v }
    | .pre f =>
      match callStep f st.d st.stack with
      | .inject stack t => .inject stack t
      | .ok d' stack' =>
        if hasPendingError d' then .done { st with d := d', stack := stack' }
        else mainLoop rest { st with d := d', stack := stack' }
    | .post f => mainLoop rest { st with posts := st.posts ++ [f] }
    | .errh f => mainLoop rest { st with errH := f }

/-- The deferred-handler loop of `Run`; the caller passes the collected
POST handlers already reversed (`for i := len(postSteps) - 1; i >= 0; i--`). -/
def postLoop : List HFunc → Data → List CallRec → CallOut
  | [], d, stack => .ok d stack
  | f :: fs, d, stack =>
    match callStep f d stack with
    | .inject stack' t => .inject stack' t
    | .ok d' stack' => postLoop fs d' stack'

/-- Structured content of the `Run` argument errors: nil for a
non-nilable declared type, a non-convertible value (with position and
the two types), missing trailing arg types, or surplus args (expected
and actual counts). -/
inductive ArgError where
  | badNil (pos : Nat) (want : Ty)
  | badType (pos : Nat) (want got : Ty)
  | missing (types : List Ty)
  | tooMany (expected got : Nat)
deriving DecidableEq, Repr

/-- Declared `ARG` types of a step list, in declaration order. -/
def argTypes (steps : List Step) : List Ty :=
  steps.filterMap fun s =>
    match s with
    | .arg t => some t
    | _ => none

/-- `reflect.Value.CanConvert`, specialised to type identity; the
conversions Go additionally allows between distinct types are not
exercised by the chain's contract. -/
def canConvert (a b : Ty) : Bool := a == b

/-- The scan of `processRunArgs` along the declared `ARG` types.  In
the Go loop, once `argValues` is exhausted every remaining `ARG` type
is collected into `missingArgs` and no further per-value check can
fire, so the collected list is exactly the remaining declared types;
the surplus check `argIndex != len(argValues)` can only fire once every
declared type was consumed.  `pos` counts consumed args (`argIndex`),
so reported positions are `pos + 1` (`ordinalize(argIndex)` after the
increment). -/
def bindArgs : List Ty → List (Option Val) → Nat → Data → Except ArgError Data
  | [], [], _, d => .ok d
  | [], v :: vs, pos, _ => .error (.tooMany pos (pos + (v :: vs).length))
  | t :: ts, [], _, _ => .error (.missing (t :: ts))
  | t :: ts, none :: vs, pos, d =>
    if t.kind = .iface ∨ t.kind = .ptr then
      bindArgs ts vs (pos + 1) (Data.set d t (.nilOf t))
    else .error (.badNil (pos + 1) t)
  | t :: ts, some v :: vs, pos, d =>
    if canConvert v.typeOf t then bindArgs ts vs (pos + 1) (Data.set d t v)
    else .error (.badType (pos + 1) t v.typeOf)

/-- `Func.processRunArgs`: match the supplied values against the
declared `ARG` steps in order, binding each under the declared type. -/
def Func.processRunArgs (c : Func) (args : List (Option Val)) :
    Except ArgError Data :=
  bindArgs (argTypes c.steps) args 0 []

/-- How a `Run` finished: normally (`Run` returned `nil`), with the
argument-mismatch error `Run` returns, or by an unrecovered panic
escaping `Run` (the "Cannot inject" `panicf`). -/
inductive RunOutcome where
  | ok
  | argErr (e : ArgError)
  | panicked (t : Ty)
deriving Repr

/-- Observable result of a `Run`: the outcome, the final data map and
the executed-steps trace. -/
structure RunResult where
  outcome : RunOutcome
  d : Data
  stack : List CallRec

/-- `Func.Run`: process args (returning their error without invoking
anything), run the main pass, invoke the active error handler iff a
pending error exists (else bind a typed-nil `error`), then run the
collected deferred handlers most recent first. -/
def Func.Run (c : Func) (args : List (Option Val)) : RunResult :=
  match c.processRunArgs args with
  | .error e => ⟨.argErr e, [], []⟩
  | .ok d0 =>
    match mainLoop c.steps ⟨d0, [], defaultErrorHandler, []⟩ with
    | .inject stack t => ⟨.panicked t, [], stack⟩
    | .done st =>
      let afterErr : CallOut :=
        if hasPendingError st.d then callStep st.errH st.d st.stack
        else .ok (Data.set st.d errorType (.nilOf errorType)) st.stack
      match afterErr with
      | .inject stack t => ⟨.panicked t, [], stack⟩
      | .ok d1 stack1 =>
        match postLoop st.posts.reverse d1 stack1 with
        | .inject stack2 t => ⟨.panicked t, [], stack2⟩
        | .ok d2 stack2 => ⟨.ok, d2, stack2⟩

end Chain

namespace Chain

/-! ### Basic lemmas about the data map -/

theorem Data.get_set_self (d : Data) (t : Ty) (v : Val) :
    Data.get (Data.set d t v) t = some v := by
  induction d with
  | nil => simp [Data.set, Data.get]
  | cons p rest ih =>
    obtain ⟨a, b⟩ := p
    by_cases h : a = t
    · simp [Data.set, Data.get, h]
    · simp [Data.set, Data.get, h, ih]

theorem Data.get_set_ne (d : Data) (t t' : Ty) (v : Val) (h : t' ≠ t) :
    Data.get (Data.set d t v) t' = Data.get d t' := by
  induction d with
  | nil => simp [Data.set, Data.get, Ne.symm h]
  | cons p rest ih =>
    obtain ⟨a, b⟩ := p
    by_cases ha : a = t
    · subst ha
      simp [Data.set, Data.get, h, Ne.symm h]
    · by_cases ha' : a = t'
      · subst ha'
        simp [Data.set, Data.get, ha]
      · simp [Data.set, Data.get, ha, ha', ih]

theorem Data.isSome_set (d : Data) (t t' : Ty) (v : Val)
    (h : (Data.get d t').isSome) : (Data.get (Data.set d t v) t').isSome := by
  by_cases ht : t' = t
  · subst ht; simp [Data.get_set_self]
  · rwa [Data.get_set_ne _ _ _ _ ht]

/-- The data map covers a list of types when each has a binding. -/
def Covers (d : Data) (ts : List Ty) : Prop :=
  ∀ t ∈ ts, (Data.get d t).isSome

theorem Covers.set (d : Data) (ts : List Ty) (t : Ty) (v : Val)
    (h : Covers d ts) : Covers (Data.set d t v) ts :=
  fun u hu => Data.isSome_set _ _ _ _ (h u hu)

/-! ### Lemmas about argument processing -/

/-- Spec-side acceptability of one supplied value for one declared arg
type: a nil needs an interface or pointer declared type, a non-nil
value must be convertible to the declared type. -/
def acceptArg (t : Ty) (a : Option Val) : Bool :=
  match a with
  | none => t.kind == TyKind.iface || t.kind == TyKind.ptr
  | some v => canConvert v.typeOf t

/-- Positional acceptability of the shared prefix of the two lists. -/
def zipAccept : List Ty → List (Option Val) → Bool
  | _, [] => true
  | [], _ => true
  | t :: ts, a :: as => acceptArg t a && zipAccept ts as

/-- Spec-side description of a well-formed argument list for the
declared arg types `tys`: same length, every position acceptable. -/
def specArgsOK : List Ty → List (Option Val) → Bool
  | [], [] => true
  | [], _ :: _ => false
  | _ :: _, [] => false
  | t :: ts, a :: as => acceptArg t a && specArgsOK ts as

theorem acceptArg_none_iff (t : Ty) :
    acceptArg t none = true ↔ (t.kind = TyKind.iface ∨ t.kind = TyKind.ptr) := by
  simp [acceptArg]

theorem bindArgs_ok_iff (tys : List Ty) (args : List (Option Val))
    (pos : Nat) (d : Data) :
    (∃ d', bindArgs tys args pos d = .ok d') ↔ specArgsOK tys args = true := by
  induction tys generalizing args pos d with
  | nil =>
    cases args with
    | nil => simp [bindArgs, specArgsOK]
    | cons v vs => simp [bindArgs, specArgsOK]
  | cons t ts ih =>
    cases args with
    | nil => simp [bindArgs, specArgsOK]
    | cons a as =>
      cases a with
      | none =>
        by_cases hk : t.kind = TyKind.iface ∨ t.kind = TyKind.ptr
        · rw [show bindArgs (t :: ts) (none :: as) pos d
              = bindArgs ts as (pos + 1) (Data.set d t (.nilOf t)) from by
            simp [bindArgs, hk]]
          rw [ih]
          simp [specArgsOK, (acceptArg_none_iff t).mpr hk]
        · rw [show bindArgs (t :: ts) (none :: as) pos d
              = .error (.badNil (pos + 1) t) from by simp [bindArgs, hk]]
          have : acceptArg t none = false := by
            rcases hna : acceptArg t none with _ | _
            · rfl
            · exact absurd ((acceptArg_none_iff t).mp hna) hk
          simp [specArgsOK, this]
      | some v =>
        by_cases hc : canConvert v.typeOf t = true
        · rw [show bindArgs (t :: ts) (some v :: as) pos d
              = bindArgs ts as (pos + 1) (Data.set d t v) from by
            simp [bindArgs, hc]]
          rw [ih]
          simp [specArgsOK, acceptArg, hc]
        · rw [show bindArgs (t :: ts) (some v :: as) pos d
              = .error (.badType (pos + 1) t v.typeOf) from by
            simp [bindArgs, hc]]
          simp [specArgsOK, acceptArg, Bool.eq_false_iff.mpr hc]

theorem bindArgs_missing (tys : List Ty) (args : List (Option Val))
    (pos : Nat) (d : Data)
    (hlen : args.length < tys.length)
    (hok : zipAccept tys args = true) :
    bindArgs tys args pos d = .error (.missing (tys.drop args.length)) := by
  induction tys generalizing args pos d with
  | nil => simp at hlen
  | cons t ts ih =>
    cases args with
    | nil => simp [bindArgs]
    | cons a as =>
      simp only [zipAccept, Bool.and_eq_true] at hok
      have hlen' : as.length < ts.length := by simpa using hlen
      cases a with
      | none =>
        have hk := (acceptArg_none_iff t).mp hok.1
        simp only [bindArgs, if_pos hk]
        simpa using ih as (pos + 1) _ hlen' hok.2
      | some v =>
        have hc : canConvert v.typeOf t = true := hok.1
        simp only [bindArgs, if_pos hc]
        simpa using ih as (pos + 1) _ hlen' hok.2

theorem bindArgs_tooMany (tys : List Ty) (args : List (Option Val))
    (pos : Nat) (d : Data)
    (hlen : tys.length < args.length)
    (hok : zipAccept tys args = true) :
    bindArgs tys args pos d
      = .error (.tooMany (pos + tys.length) (pos + args.length)) := by
  induction tys generalizing args pos d with
  | nil =>
    cases args with
    | nil => simp at hlen
    | cons v vs => simp [bindArgs]
  | cons t ts ih =>
    cases args with
    | nil => simp at hlen
    | cons a as =>
      simp only [zipAccept, Bool.and_eq_true] at hok
      have hlen' : ts.length < as.length := by simpa using hlen
      cases a with
      | none =>
        have hk := (acceptArg_none_iff t).mp hok.1
        simp only [bindArgs, if_pos hk]
        rw [ih as (pos + 1) _ hlen' hok.2]
        congr 2 <;> simp <;> omega
      | some v =>
        have hc : canConvert v.typeOf t = true := hok.1
        simp only [bindArgs, if_pos hc]
        rw [ih as (pos + 1) _ hlen' hok.2]
        congr 2 <;> simp <;> omega

theorem bindArgs_covers (tys : List Ty) (args : List (Option Val))
    (pos : Nat) (d d' : Data)
    (h : bindArgs tys args pos d = .ok d') :
    Covers d' tys ∧ (∀ t, (Data.get d t).isSome → (Data.get d' t).isSome) := by
  induction tys generalizing args pos d with
  | nil =>
    cases args with
    | nil =>
      simp only [bindArgs, Except.ok.injEq] at h
      subst h
      exact ⟨by intro t ht; simp at ht, fun t ht => ht⟩
    | cons v vs => cases h
  | cons t ts ih =>
    cases args with
    | nil => cases h
    | cons a as =>
      cases a with
      | none =>
        by_cases hk : t.kind = TyKind.iface ∨ t.kind = TyKind.ptr
        · simp only [bindArgs, if_pos hk] at h
          obtain ⟨hcov, hmono⟩ := ih as (pos + 1) _ h
          refine ⟨?_, fun u hu => hmono u (Data.isSome_set _ _ _ _ hu)⟩
          intro u hu
          rcases List.mem_cons.mp hu with rfl | hu
          · exact hmono u (by simp [Data.get_set_self])
          · exact hcov u hu
        · simp only [bindArgs, if_neg hk] at h
          cases h
      | some v =>
        by_cases hc : canConvert v.typeOf t = true
        · simp only [bindArgs, if_pos hc] at h
          obtain ⟨hcov, hmono⟩ := ih as (pos + 1) _ h
          refine ⟨?_, fun u hu => hmono u (Data.isSome_set _ _ _ _ hu)⟩
          intro u hu
          rcases List.mem_cons.mp hu with rfl | hu
          · exact hmono u (by simp [Data.get_set_self])
          · exact hcov u hu
        · simp only [bindArgs, if_neg hc] at h
          cases h

end Chain

namespace Chain

/-! ### The available set as a flat list -/

/-- Types one step contributes to the available set. -/
def stepProvides : Step → List Ty
  | .arg t => [t]
  | .value v t => [v.typeOf, t]
  | .pre f => f.outs
  | .post _ => []
  | .errh _ => []

theorem typesAvailable_eq (steps : List Step) :
    Func.typesAvailable ⟨steps⟩ = (steps.map stepProvides).flatten := by
  have h : ∀ (l : List Step) (acc : List Ty),
      l.foldl
        (fun m s =>
          match s with
          | .arg t => m ++ [t]
          | .value v t => m ++ [v.typeOf, t]
          | .pre f => m ++ f.outs
          | .post _ => m
          | .errh _ => m) acc
      = acc ++ (l.map stepProvides).flatten := by
    intro l
    induction l with
    | nil => intro acc; simp
    | cons s rest ih =>
      intro acc
      cases s <;> simp [stepProvides, ih, List.append_assoc]
  simpa [Func.typesAvailable] using h steps []

theorem typesAvailable_append (a b : List Step) :
    Func.typesAvailable ⟨a ++ b⟩
      = Func.typesAvailable ⟨a⟩ ++ (b.map stepProvides).flatten := by
  simp [typesAvailable_eq, List.map_append, List.flatten_append]

/-! ### Construction-time validation lemmas -/

theorem checkArgsFrom_none (available : List Ty) (fnName : String)
    (ins : List Ty) (i : Nat)
    (h : checkArgsFrom available fnName ins i = none) :
    ∀ t ∈ ins, t ∈ available := by
  induction ins generalizing i with
  | nil => intro t ht; simp at ht
  | cons u us ih =>
    intro t ht
    by_cases hu : u ∈ available
    · simp only [checkArgsFrom, if_pos hu] at h
      rcases List.mem_cons.mp ht with rfl | ht
      · exact hu
      · exact ih (i + 1) h t ht
    · simp [checkArgsFrom, if_neg hu] at h

theorem thenLoop_spec (fs : List HFunc) (available : List Ty)
    (steps : List Step) (h : thenLoop available fs = .ok steps) :
    steps = fs.map Step.pre
    ∧ ∀ i f, fs.get? i = some f →
        ∀ t ∈ f.ins, t ∈ available ++ ((fs.take i).map HFunc.outs).flatten := by
  induction fs generalizing available steps with
  | nil =>
    simp only [thenLoop, Except.ok.injEq] at h
    subst h
    exact ⟨rfl, by intro i f hf; simp at hf⟩
  | cons f fs' ih =>
    simp only [thenLoop] at h
    rcases hchk : checkArgsFrom available f.name f.ins 0 with _ | e
    · rw [hchk] at h
      rcases hrest : thenLoop (available ++ f.outs) fs' with e' | rest
      · rw [hrest] at h; cases h
      · rw [hrest] at h
        simp only [Except.ok.injEq] at h
        subst h
        obtain ⟨hsteps, havail⟩ := ih (available ++ f.outs) rest hrest
        constructor
        · simp [hsteps]
        · intro i g hg t ht
          cases i with
          | zero =>
            simp only [List.get?, Option.some.injEq] at hg
            subst hg
            have := checkArgsFrom_none available f.name f.ins 0 hchk t ht
            simp [this]
          | succ i' =>
            simp only [List.get?] at hg
            have := havail i' g hg t ht
            simpa [List.append_assoc] using this
    · rw [hchk] at h; cases h

/-! ### Claim C2: Run argument validation -/

/-- C2: `run(chain, argValues...)` returns an error iff the argument
list is malformed.  The conjuncts state: (1) `processRunArgs` fails
exactly when the argument list does not match the declared arg types
positionally (`specArgsOK`); (2) when it fails, `Run` returns that
error with an empty trace — no handler was invoked — and an empty data
map; (3) too few values yield the `missing` error listing the
undischarged declared types; (4) too many values yield the `tooMany`
error with expected and actual counts; (5) a nil for an interface or
pointer declared type is accepted and bound as the typed nil of the
declared type, (6) a nil for any other declared type is a positional
error, and (7) a non-convertible value is a positional type error
naming the expected and actual types. -/
theorem run_arg_validation (c : Func) (args : List (Option Val)) :
    ((∃ e, c.processRunArgs args = .error e)
        ↔ specArgsOK (argTypes c.steps) args = false)
    ∧ (∀ e, c.processRunArgs args = .error e →
        c.Run args = ⟨.argErr e, [], []⟩)
    ∧ (args.length < (argTypes c.steps).length →
        zipAccept (argTypes c.steps) args = true →
        c.processRunArgs args
          = .error (.missing ((argTypes c.steps).drop args.length)))
    ∧ ((argTypes c.steps).length < args.length →
        zipAccept (argTypes c.steps) args = true →
        c.processRunArgs args
          = .error (.tooMany (argTypes c.steps).length args.length))
    ∧ (∀ t ts vs pos d, t.kind = TyKind.iface ∨ t.kind = TyKind.ptr →
        bindArgs (t :: ts) (none :: vs) pos d
          = bindArgs ts vs (pos + 1) (Data.set d t (.nilOf t)))
    ∧ (∀ t ts vs pos d, t.kind = TyKind.basic →
        bindArgs (t :: ts) (none :: vs) pos d = .error (.badNil (pos + 1) t))
    ∧ (∀ t ts v vs pos d, canConvert v.typeOf t = false →
        bindArgs (t :: ts) (some v :: vs) pos d
          = .error (.badType (pos + 1) t v.typeOf)) := by
  refine ⟨?_, ?_, ?_, ?_, ?_, ?_, ?_⟩
  · constructor
    · rintro ⟨e, he⟩
      by_contra hspec
      have hspec' : specArgsOK (argTypes c.steps) args = true := by
        rcases hb : specArgsOK (argTypes c.steps) args with _ | _
        · exact absurd hb hspec
        · rfl
      obtain ⟨d', hd'⟩ := (bindArgs_ok_iff (argTypes c.steps) args 0 []).mpr hspec'
      rw [Func.processRunArgs] at he
      rw [hd'] at he
      cases he
    · intro hspec
      rcases he : c.processRunArgs args with e | d'
      · exact ⟨e, rfl⟩
      · exfalso
        have : specArgsOK (argTypes c.steps) args = true :=
          (bindArgs_ok_iff (argTypes c.steps) args 0 []).mp ⟨d', he⟩
        rw [this] at hspec
        cases hspec
  · intro e he
    simp [Func.Run, he]
  · intro hlen hok
    exact bindArgs_missing _ _ _ _ hlen hok
  · intro hlen hok
    simpa using bindArgs_tooMany _ _ 0 _ hlen hok
  · intro t ts vs pos d hk
    simp [bindArgs, hk]
  · intro t ts vs pos d hk
    have : ¬(t.kind = TyKind.iface ∨ t.kind = TyKind.ptr) := by
      rw [hk]; rintro (h | h) <;> cases h
    simp [bindArgs, this]
  · intro t ts v vs pos d hc
    simp [bindArgs, hc]

def tA : Ty := ⟨1, .basic⟩
def tB : Ty := ⟨2, .basic⟩
def tP : Ty := ⟨3, .ptr⟩
def tI : Ty := ⟨4, .iface⟩

/-- Witness for C2 at concrete inputs. -/
theorem run_arg_validation_witness :
    Func.processRunArgs ⟨[.arg tA, .arg tP]⟩ [] = .error (.missing [tA, tP])
    ∧ Func.Run ⟨[.arg tA, .arg tP]⟩ [] = ⟨.argErr (.missing [tA, tP]), [], []⟩
    ∧ Func.processRunArgs ⟨[.arg tA, .arg tP]⟩
        [some (.prim tA 1), none, some (.prim tA 2)] = .error (.tooMany 2 3)
    ∧ bindArgs [tP] [none] 0 [] = bindArgs [] [] 1 (Data.set [] tP (.nilOf tP))
    ∧ bindArgs [tA] [none] 0 [] = .error (.badNil 1 tA)
    ∧ bindArgs [tA] [some (.prim tP 1)] 0 [] = .error (.badType 1 tA tP) := by
  have h := run_arg_validation ⟨[.arg tA, .arg tP]⟩ []
  have h3 := run_arg_validation ⟨[.arg tA, .arg tP]⟩
    [some (.prim tA 1), none, some (.prim tA 2)]
  have hmiss : Func.processRunArgs ⟨[.arg tA, .arg tP]⟩ []
      = .error (.missing [tA, tP]) :=
    h.2.2.1 (by decide) (by decide)
  refine ⟨hmiss, h.2.1 _ hmiss, ?_, ?_, ?_, ?_⟩
  · exact h3.2.2.2.1 (by decide) (by decide)
  · exact h.2.2.2.2.1 tP [] [] 0 [] (Or.inr rfl)
  · exact h.2.2.2.2.2.1 tA [] [] 0 [] rfl
  · exact h.2.2.2.2.2.2 tA [] (Val.prim tP 1) [] 0 [] (by decide)

/-! ### Claim C4: appending handlers requires available parameter types -/

/-- C4: a handler appended by `Then`, `OnErr` or `Defer` is accepted
only if each of its parameter types is in the available set computed
from all prior steps (for a later handler of the same `Then` call, the
earlier handlers of that call count as prior `PRE` steps); `OnErr` and
`Defer` additionally treat the built-in `error` type as available. -/
theorem append_requires_available_types :
    (∀ (c : Func) (fs : List HFunc) (c' : Func), c.Then fs = .ok c' →
        ∀ i f, fs.get? i = some f →
          ∀ t ∈ f.ins,
            t ∈ Func.typesAvailable ⟨c.steps ++ ((fs.take i).map Step.pre)⟩)
    ∧ (∀ (c : Func) (f : HFunc) (c' : Func), c.OnErr f = .ok c' →
        ∀ t ∈ f.ins, t ∈ errorType :: c.typesAvailable)
    ∧ (∀ (c : Func) (f : HFunc) (c' : Func), c.Defer f = .ok c' →
        ∀ t ∈ f.ins, t ∈ errorType :: c.typesAvailable) := by
  refine ⟨?_, ?_, ?_⟩
  · intro c fs c' h i f hf t ht
    rcases hloop : thenLoop c.typesAvailable fs with e | steps
    · rw [Func.Then, hloop] at h; cases h
    · have hmem := (thenLoop_spec fs c.typesAvailable steps hloop).2 i f hf t ht
      rw [typesAvailable_append]
      have hc : Func.typesAvailable ⟨c.steps⟩ = c.typesAvailable := rfl
      rw [hc]
      have : ((fs.take i).map Step.pre).map stepProvides
          = (fs.take i).map HFunc.outs := by
        rw [List.map_map]
        rfl
      rw [this]
      exact hmem
  · intro c f c' h t ht
    rcases hchk : checkArgsFrom (errorType :: c.typesAvailable) f.name f.ins 0
      with _ | e
    · exact checkArgsFrom_none _ _ _ _ hchk t ht
    · rw [Func.OnErr, hchk] at h; cases h
  · intro c f c' h t ht
    rcases hchk : checkArgsFrom (errorType :: c.typesAvailable) f.name f.ins 0
      with _ | e
    · exact checkArgsFrom_none _ _ _ _ hchk t ht
    · rw [Func.Defer, hchk] at h; cases h

/-- Witness for C4: a concrete chain accepting a PRE handler whose
parameter was provided by a VALUE step, and an error handler taking
the implicit `error`. -/
theorem append_requires_available_types_witness :
    (tA ∈ Func.typesAvailable
        ⟨[Step.value (Val.prim tA 7) tA] ++ (([] : List HFunc).map Step.pre)⟩)
    ∧ (errorType ∈ errorType :: Func.typesAvailable ⟨[]⟩) := by
  constructor
  · exact append_requires_available_types.1
      ⟨[Step.value (Val.prim tA 7) tA]⟩
      [⟨"f", [tA], [], fun _ => .ret []⟩] _ rfl
      0 _ rfl tA (by simp)
  · exact append_requires_available_types.2.1
      ⟨[]⟩ ⟨"h", [errorType], [], fun _ => .ret []⟩ _ rfl
      errorType (by simp)

end Chain


namespace Chain

/-! ### Well-formedness of a constructed chain -/

/-- A handler's inputs are resolvable from `d`, except that `error` may
be bound later by the executor itself. -/
def InsOK (d : Data) (f : HFunc) : Prop :=
  ∀ t ∈ f.ins, t = errorType ∨ (Data.get d t).isSome

/-- The validation `Then`/`OnErr`/`Defer` perform on a step appended
after the steps `ctx`: handler parameter types must be available
(`error` also counts for `POST`/`ERR` steps, which in addition have no
outputs). -/
def stepAvailOK (ctx : List Step) : Step → Prop
  | .pre f => ∀ t ∈ f.ins, t ∈ Func.typesAvailable ⟨ctx⟩
  | .post f => f.outs = [] ∧ ∀ t ∈ f.ins, t ∈ errorType :: Func.typesAvailable ⟨ctx⟩
  | .errh f => f.outs = [] ∧ ∀ t ∈ f.ins, t ∈ errorType :: Func.typesAvailable ⟨ctx⟩
  | .arg _ => True
  | .value _ _ => True

/-- Every step of the list is validated against the steps before it
(with `ctx` before all of them). -/
def availFrom (ctx : List Step) : List Step → Prop
  | [] => True
  | s :: rest => stepAvailOK ctx s ∧ availFrom (ctx ++ [s]) rest

/-- A chain each of whose steps passed construction-time validation. -/
def Func.ValidCons (c : Func) : Prop := availFrom [] c.steps

/-- Body well-formedness of the handler of a step, if any. -/
def stepBodyWF : Step → Prop
  | .pre f => f.WF
  | .post f => f.WF
  | .errh f => f.WF
  | _ => True

/-- All handler bodies of the chain return their declared output types. -/
def Func.BodiesWF (c : Func) : Prop := ∀ s ∈ c.steps, stepBodyWF s

/-! ### Construction scripts -/

/-- One public construction call on a chain. -/
inductive BuildOp where
  | arg (t : Ty)
  | set (v : Option Val)
  | setAs (impl : Ty → Ty → Bool) (v : Option Val) (t : Ty)
  | thenOps (fs : List HFunc)
  | onErr (f : HFunc)
  | deferOp (f : HFunc)

/-- Run one construction call. -/
def buildOp (c : Func) : BuildOp → Except CErr Func
  | .arg t => .ok (c.Arg t)
  | .set v => c.Set v
  | .setAs impl v t => c.SetAs impl v t
  | .thenOps fs => c.Then fs
  | .onErr f => c.OnErr f
  | .deferOp f => c.Defer f

/-- Run a sequence of construction calls, stopping at the first
construction error (in Go, the first `panicf`). -/
def build : Func → List BuildOp → Except CErr Func
  | c, [] => .ok c
  | c, op :: ops =>
    match buildOp c op with
    | .error e => .error e
    | .ok c' => build c' ops

/-- The handlers named by a construction call have well-formed bodies
(true of every Go function value). -/
def opWF : BuildOp → Prop
  | .thenOps fs => ∀ f ∈ fs, f.WF
  | .onErr f => f.WF
  | .deferOp f => f.WF
  | _ => True

/-! ### Trace bookkeeping helpers -/

/-- The collected POST handlers of a step prefix, registration order. -/
def postsOf (steps : List Step) : List HFunc :=
  steps.filterMap fun s =>
    match s with
    | .post f => some f
    | _ => none

/-- Names of the PRE handlers of a step prefix, registration order. -/
def preNames (steps : List Step) : List String :=
  steps.filterMap fun s =>
    match s with
    | .pre f => some f.name
    | _ => none

/-- The error handler active after walking the steps: the last `ERR`
step, or the supplied default. -/
def lastErrH (h0 : HFunc) (steps : List Step) : HFunc :=
  steps.foldl
    (fun h s =>
      match s with
      | .errh f => f
      | _ => h)
    h0

theorem lastErrH_cons (h0 : HFunc) (s : Step) (l : List Step) :
    lastErrH h0 (s :: l)
      = lastErrH (match s with | .errh f => f | _ => h0) l := rfl

/-! ### Output binding and call lemmas -/

theorem find?_append {α : Type} (p : α → Bool) (l1 l2 : List α) :
    (l1 ++ l2).find? p
      = match l1.find? p with
        | some a => some a
        | none => l2.find? p := by
  induction l1 with
  | nil => simp
  | cons a l ih =>
    by_cases h : p a = true
    · simp [List.find?, h]
    · simp only [List.cons_append, List.find?, Bool.not_eq_true] at *
      rw [h]
      simpa [h] using ih

/-- Where a type ends up after binding a list of outputs in order: the
last output of that type wins, anything else is untouched. -/
theorem bindOuts_get (outs : List Val) (d : Data) (t : Ty) :
    Data.get (bindOuts outs d) t
      = match outs.reverse.find? (fun v => v.typeOf == t) with
        | some v => some v
        | none => Data.get d t := by
  induction outs generalizing d with
  | nil => simp [bindOuts]
  | cons v vs ih =>
    have hstep : bindOuts (v :: vs) d = bindOuts vs (Data.set d v.typeOf v) := rfl
    rw [hstep, ih, List.reverse_cons, find?_append]
    rcases hf : vs.reverse.find? (fun u => u.typeOf == t) with _ | u
    · by_cases ht : v.typeOf = t
      · subst ht
        simp [hf, List.find?, Data.get_set_self]
      · have hbe : (v.typeOf == t) = false := by simp [ht]
        simp [hf, List.find?, hbe,
          Data.get_set_ne _ _ _ _ (fun h => ht h.symm)]
    · simp [hf]

theorem bindOuts_mono (outs : List Val) (d : Data) (t : Ty)
    (h : (Data.get d t).isSome) : (Data.get (bindOuts outs d) t).isSome := by
  rw [bindOuts_get]
  rcases hf : outs.reverse.find? (fun v => v.typeOf == t) with _ | u
  · simp [hf, h]
  · simp [hf]

theorem bindOuts_covers_outs (outs : List Val) (d : Data) (t : Ty)
    (h : t ∈ outs.map Val.typeOf) :
    (Data.get (bindOuts outs d) t).isSome := by
  rw [bindOuts_get]
  obtain ⟨v, hv, rfl⟩ := List.mem_map.mp h
  rcases hf : outs.reverse.find? (fun u => u.typeOf == v.typeOf) with _ | u
  · have := List.find?_eq_none.mp hf v (List.mem_reverse.mpr hv)
    simp at this
  · simp [hf]

theorem resolveIns_ok (d : Data) (ins : List Ty)
    (h : ∀ t ∈ ins, (Data.get d t).isSome) :
    ∃ vals, resolveIns d ins = .ok vals := by
  induction ins with
  | nil => exact ⟨[], rfl⟩
  | cons t ts ih =>
    have ht := h t (by simp)
    rcases hget : Data.get d t with _ | v
    · rw [hget] at ht; cases ht
    · obtain ⟨vals, hvals⟩ := ih fun u hu => h u (by simp [hu])
      exact ⟨v :: vals, by simp [resolveIns, hget, hvals]⟩

/-- Full characterisation of a `call` whose inputs resolve: the step is
pushed on the stack with the resolved inputs, and either the body
returned and its outputs were bound, or it panicked and the pending
error became the corresponding `PanicError`. -/
theorem callStep_char (f : HFunc) (d : Data) (stack : List CallRec)
    (h : ∀ t ∈ f.ins, (Data.get d t).isSome) :
    ∃ vals d', resolveIns d f.ins = .ok vals
      ∧ callStep f d stack = .ok d' (stack ++ [⟨f.name, vals⟩])
      ∧ ((∃ outs, f.body vals = .ret outs ∧ d' = bindOuts outs d)
         ∨ (∃ v, f.body vals = .panics v
             ∧ d' = Data.set d errorType
                 (.errv (.panicErr v (mwStackOf (stack ++ [⟨f.name, vals⟩])))))) := by
  obtain ⟨vals, hvals⟩ := resolveIns_ok d f.ins h
  rcases hb : f.body vals with outs | v
  · exact ⟨vals, bindOuts outs d, hvals,
      by simp [callStep, hvals, hb], Or.inl ⟨outs, hb, rfl⟩⟩
  · exact ⟨vals, _, hvals, by simp [callStep, hvals, hb], Or.inr ⟨v, hb, rfl⟩⟩

theorem callStep_mono (f : HFunc) (d : Data) (stack : List CallRec)
    (d' : Data) (stack' : List CallRec)
    (h : callStep f d stack = .ok d' stack') :
    ∀ t, (Data.get d t).isSome → (Data.get d' t).isSome := by
  intro t ht
  simp only [callStep] at h
  rcases hr : resolveIns d f.ins with u | vals
  · simp [hr] at h
  · simp only [hr] at h
    rcases hb : f.body vals with outs | v
    · simp only [hb] at h
      cases h
      exact bindOuts_mono _ _ _ ht
    · simp only [hb] at h
      cases h
      exact Data.isSome_set _ _ _ _ ht

end Chain

namespace Chain

/-! ### Construction preserves validation -/

theorem availFrom_append (ctx l1 l2 : List Step) :
    availFrom ctx (l1 ++ l2) ↔ availFrom ctx l1 ∧ availFrom (ctx ++ l1) l2 := by
  induction l1 generalizing ctx with
  | nil => simp [availFrom]
  | cons s l1' ih =>
    have hstep : availFrom ctx ((s :: l1') ++ l2)
        = (stepAvailOK ctx s ∧ availFrom (ctx ++ [s]) (l1' ++ l2)) := rfl
    have hstep2 : availFrom ctx (s :: l1')
        = (stepAvailOK ctx s ∧ availFrom (ctx ++ [s]) l1') := rfl
    rw [hstep, hstep2, ih (ctx ++ [s])]
    rw [show (ctx ++ [s]) ++ l1' = ctx ++ (s :: l1') from by simp]
    tauto

theorem then_shape (c : Func) (fs : List HFunc) (c' : Func)
    (h : c.Then fs = .ok c') :
    c' = ⟨c.steps ++ fs.map Step.pre⟩
    ∧ ∀ i f, fs.get? i = some f →
        ∀ t ∈ f.ins,
          t ∈ Func.typesAvailable ⟨c.steps ++ (fs.take i).map Step.pre⟩ := by
  rcases hloop : thenLoop c.typesAvailable fs with e | steps
  · rw [Func.Then, hloop] at h; cases h
  · rw [Func.Then, hloop] at h
    cases h
    obtain ⟨hsteps, havail⟩ := thenLoop_spec fs c.typesAvailable steps hloop
    subst hsteps
    refine ⟨rfl, ?_⟩
    intro i f hf t ht
    have hmem := havail i f hf t ht
    rw [typesAvailable_append]
    have hmap : ((fs.take i).map Step.pre).map stepProvides
        = (fs.take i).map HFunc.outs := by
      rw [List.map_map]; rfl
    rw [hmap]
    exact hmem

theorem setAs_shape (impl : Ty → Ty → Bool) (c : Func) (v : Option Val)
    (t : Ty) (c' : Func) (h : Func.SetAs impl c v t = .ok c') :
    ∃ w, c' = c.withSteps [.value w t] := by
  cases v with
  | none =>
    unfold Func.SetAs at h
    simp only [] at h
    split_ifs at h with h1 h2
    exact ⟨_, by injection h with h'; exact h'.symm⟩
  | some w =>
    unfold Func.SetAs at h
    simp only [] at h
    split_ifs at h with h1 h2
    exact ⟨_, by injection h with h'; exact h'.symm⟩

theorem onErr_shape (c : Func) (f : HFunc) (c' : Func)
    (h : c.OnErr f = .ok c') :
    c' = c.withSteps [.errh f] ∧ f.outs = []
    ∧ checkArgsFrom (errorType :: c.typesAvailable) f.name f.ins 0 = none := by
  unfold Func.OnErr at h
  split at h
  · cases h
  · rename_i hchk
    split_ifs at h with houts
    injection h with h'
    exact ⟨h'.symm, houts, hchk⟩

theorem defer_shape (c : Func) (f : HFunc) (c' : Func)
    (h : c.Defer f = .ok c') :
    c' = c.withSteps [.post f] ∧ f.outs = []
    ∧ checkArgsFrom (errorType :: c.typesAvailable) f.name f.ins 0 = none := by
  unfold Func.Defer at h
  split at h
  · cases h
  · rename_i hchk
    split_ifs at h with houts
    injection h with h'
    exact ⟨h'.symm, houts, hchk⟩

theorem availFrom_pres (fs : List HFunc) (ctx : List Step)
    (h : ∀ i f, fs.get? i = some f →
        ∀ t ∈ f.ins,
          t ∈ Func.typesAvailable ⟨ctx ++ (fs.take i).map Step.pre⟩) :
    availFrom ctx (fs.map Step.pre) := by
  induction fs generalizing ctx with
  | nil => trivial
  | cons f fs' ih =>
    constructor
    · intro t ht
      have := h 0 f rfl t ht
      simpa using this
    · apply ih (ctx ++ [Step.pre f])
      intro i g hg t ht
      have := h (i + 1) g hg t ht
      simpa [List.append_assoc] using this

theorem validCons_buildOp (c c' : Func) (op : BuildOp)
    (h : buildOp c op = .ok c') (hv : c.ValidCons) : c'.ValidCons := by
  cases op with
  | arg t =>
    simp only [buildOp, Func.Arg, Func.withSteps, Except.ok.injEq] at h
    subst h
    exact (availFrom_append [] c.steps [.arg t]).mpr ⟨hv, trivial, trivial⟩
  | set v =>
    cases v with
    | none => cases h
    | some w =>
      simp only [buildOp, Func.Set, Func.withSteps, Except.ok.injEq] at h
      subst h
      exact (availFrom_append [] c.steps [.value w w.typeOf]).mpr
        ⟨hv, trivial, trivial⟩
  | setAs impl v t =>
    obtain ⟨w, rfl⟩ := setAs_shape impl c v t c' h
    exact (availFrom_append [] c.steps [.value w t]).mpr ⟨hv, trivial, trivial⟩
  | thenOps fs =>
    obtain ⟨hshape, havail⟩ := then_shape c fs c' h
    subst hshape
    refine (availFrom_append [] c.steps (fs.map Step.pre)).mpr ⟨hv, ?_⟩
    exact availFrom_pres fs c.steps (by simpa using havail)
  | onErr f =>
    obtain ⟨hshape, houts, hchk⟩ := onErr_shape c f c' h
    subst hshape
    exact (availFrom_append [] c.steps [.errh f]).mpr
      ⟨hv, ⟨houts, checkArgsFrom_none _ _ _ _ hchk⟩, trivial⟩
  | deferOp f =>
    obtain ⟨hshape, houts, hchk⟩ := defer_shape c f c' h
    subst hshape
    exact (availFrom_append [] c.steps [.post f]).mpr
      ⟨hv, ⟨houts, checkArgsFrom_none _ _ _ _ hchk⟩, trivial⟩

theorem bodiesWF_append (c : Func) (xs : List Step)
    (hw : c.BodiesWF) (hxs : ∀ s ∈ xs, stepBodyWF s) :
    (c.withSteps xs).BodiesWF := by
  intro s hs
  rcases List.mem_append.mp hs with hs | hs
  · exact hw s hs
  · exact hxs s hs

theorem bodiesWF_buildOp (c c' : Func) (op : BuildOp)
    (h : buildOp c op = .ok c') (hw : c.BodiesWF) (hop : opWF op) :
    c'.BodiesWF := by
  cases op with
  | arg t =>
    simp only [buildOp, Func.Arg] at h
    injection h with h'
    subst h'
    exact bodiesWF_append c _ hw (by intro s hs; simp at hs; subst hs; trivial)
  | set v =>
    cases v with
    | none => cases h
    | some w =>
      simp only [buildOp, Func.Set] at h
      injection h with h'
      subst h'
      exact bodiesWF_append c _ hw (by intro s hs; simp at hs; subst hs; trivial)
  | setAs impl v t =>
    obtain ⟨w, rfl⟩ := setAs_shape impl c v t c' h
    exact bodiesWF_append c _ hw (by intro s hs; simp at hs; subst hs; trivial)
  | thenOps fs =>
    obtain ⟨hshape, _⟩ := then_shape c fs c' h
    subst hshape
    apply bodiesWF_append c _ hw
    intro s hs
    obtain ⟨f, hf, rfl⟩ := List.mem_map.mp hs
    exact hop f hf
  | onErr f =>
    obtain ⟨hshape, _, _⟩ := onErr_shape c f c' h
    subst hshape
    exact bodiesWF_append c _ hw (by intro s hs; simp at hs; subst hs; exact hop)
  | deferOp f =>
    obtain ⟨hshape, _, _⟩ := defer_shape c f c' h
    subst hshape
    exact bodiesWF_append c _ hw (by intro s hs; simp at hs; subst hs; exact hop)

theorem build_valid (ops : List BuildOp) (c c' : Func)
    (h : build c ops = .ok c') (hv : c.ValidCons) (hw : c.BodiesWF)
    (hops : ∀ op ∈ ops, opWF op) : c'.ValidCons ∧ c'.BodiesWF := by
  induction ops generalizing c with
  | nil =>
    simp only [build, Except.ok.injEq] at h
    subst h
    exact ⟨hv, hw⟩
  | cons op ops' ih =>
    simp only [build] at h
    rcases hop : buildOp c op with e | c1
    · rw [hop] at h; cases h
    · rw [hop] at h
      exact ih c1 h (validCons_buildOp c c1 op hop hv)
        (bodiesWF_buildOp c c1 op hop hw (hops op (by simp)))
        (fun o ho => hops o (by simp [ho]))

end Chain

namespace Chain

/-! ### Supporting lemmas for the executor invariant -/

theorem typesAvailable_snoc (ctx : List Step) (s : Step) :
    Func.typesAvailable ⟨ctx ++ [s]⟩
      = Func.typesAvailable ⟨ctx⟩ ++ stepProvides s := by
  rw [typesAvailable_append]
  simp

theorem Covers.monoC {d d' : Data} {ts : List Ty} (h : Covers d ts)
    (hm : ∀ t, (Data.get d t).isSome → (Data.get d' t).isSome) :
    Covers d' ts :=
  fun t ht => hm t (h t ht)

theorem InsOK.monoData {d d' : Data} {f : HFunc} (h : InsOK d f)
    (hm : ∀ t, (Data.get d t).isSome → (Data.get d' t).isSome) :
    InsOK d' f := by
  intro t ht
  rcases h t ht with he | hs
  · exact Or.inl he
  · exact Or.inr (hm t hs)

theorem pending_isSome (d : Data) (h : hasPendingError d = true) :
    (Data.get d errorType).isSome := by
  unfold hasPendingError at h
  rcases hget : Data.get d errorType with _ | v
  · rw [hget] at h; cases h
  · simp

theorem hasPendingError_set_err (d : Data) (e : GoErr) :
    hasPendingError (Data.set d errorType (.errv e)) = true := by
  simp [hasPendingError, Data.get_set_self, Val.isNil]

theorem mem_argTypes_cons {u : Ty} {s : Step} {l : List Step}
    (h : u ∈ argTypes l) : u ∈ argTypes (s :: l) := by
  cases s <;> simp [argTypes, List.filterMap_cons] at * <;> tauto

theorem mem_argTypes_head (t : Ty) (l : List Step) :
    t ∈ argTypes (Step.arg t :: l) := by
  simp [argTypes, List.filterMap_cons]

theorem argTypes_append (l1 l2 : List Step) :
    argTypes (l1 ++ l2) = argTypes l1 ++ argTypes l2 := by
  simp [argTypes, List.filterMap_append]

/-! ### The main-pass invariant -/

/-- Master lemma for the labelled `execution` loop of `Run`.  Starting
from a state whose data map covers the declared arg types of the
remaining steps and everything the context makes available, with valid
collected posts and error handler, the loop completes without an
unrecovered panic after processing some prefix `take a` of the steps:
POSTs collected in order, PRE calls traced in order, the error handler
being the last `ERR` walked; the loop stops early only right after a
PRE call that left a pending error, and then the steps beyond the stop
point are never touched: replacing them by any list at all yields the
same final state. -/
theorem mainLoop_spec (rest : List Step) (ctx : List Step) (st : MainState)
    (hval : availFrom ctx rest)
    (hwf : ∀ s ∈ rest, stepBodyWF s)
    (hargs : Covers st.d (argTypes rest))
    (hcov : Covers st.d (Func.typesAvailable ⟨ctx⟩))
    (hposts : ∀ f ∈ st.posts, f.outs = [] ∧ f.WF ∧ InsOK st.d f)
    (herr : st.errH.outs = [] ∧ st.errH.WF ∧ InsOK st.d st.errH) :
    ∃ st' a, mainLoop rest st = .done st'
      ∧ a ≤ rest.length
      ∧ (∀ t, (Data.get st.d t).isSome → (Data.get st'.d t).isSome)
      ∧ (∀ f ∈ st'.posts, f.outs = [] ∧ f.WF ∧ InsOK st'.d f)
      ∧ (st'.errH.outs = [] ∧ st'.errH.WF ∧ InsOK st'.d st'.errH)
      ∧ st'.posts = st.posts ++ postsOf (rest.take a)
      ∧ st'.stack.map CallRec.name
          = st.stack.map CallRec.name ++ preNames (rest.take a)
      ∧ st'.errH = lastErrH st.errH (rest.take a)
      ∧ (a < rest.length →
          1 ≤ a ∧ hasPendingError st'.d = true
          ∧ (∃ f, rest.get? (a - 1) = some (.pre f))
          ∧ ∀ sfx, mainLoop (rest.take a ++ sfx) st = .done st') := by
  induction rest generalizing ctx st with
  | nil =>
    refine ⟨st, 0, rfl, Nat.le_refl 0, fun t ht => ht, hposts, herr, ?_, ?_, rfl, ?_⟩
    · simp [postsOf]
    · simp [preNames]
    · intro h; cases h
  | cons s rest' ih =>
    obtain ⟨hs, hval'⟩ := hval
    cases s with
    | arg t =>
      have hred : mainLoop (Step.arg t :: rest') st = mainLoop rest' st := rfl
      have hargs' : Covers st.d (argTypes rest') := by
        intro u hu
        exact hargs u (mem_argTypes_cons hu)
      have hargt : (Data.get st.d t).isSome :=
        hargs t (mem_argTypes_head t rest')
      have hcov' : Covers st.d (Func.typesAvailable ⟨ctx ++ [Step.arg t]⟩) := by
        rw [typesAvailable_snoc]
        intro u hu
        rcases List.mem_append.mp hu with hu | hu
        · exact hcov u hu
        · simp only [stepProvides, List.mem_singleton] at hu
          subst hu
          exact hargt
      obtain ⟨st', a', hdone, hle, hmono, hposts', herr', hpostacc, hstack,
        herrh, habort⟩ :=
        ih (ctx ++ [Step.arg t]) st hval'
          (fun u hu => hwf u (by simp [hu])) hargs' hcov' hposts herr
      refine ⟨st', a' + 1, by rw [hred]; exact hdone, by simpa using hle,
        hmono, hposts', herr', ?_, ?_, ?_, ?_⟩
      · simpa [postsOf] using hpostacc
      · simpa [preNames] using hstack
      · simpa [lastErrH_cons] using herrh
      · intro hlt
        have hlt' : a' < rest'.length := by simpa using hlt
        obtain ⟨h1, hpend, ⟨f, hf⟩, hsfx⟩ := habort hlt'
        obtain ⟨b, rfl⟩ : ∃ b, a' = b + 1 := ⟨a' - 1, by omega⟩
        refine ⟨by omega, hpend, ⟨f, by simpa using hf⟩, ?_⟩
        intro sfx
        have hts : (Step.arg t :: rest').take (b + 1 + 1) ++ sfx
            = Step.arg t :: (rest'.take (b + 1) ++ sfx) := by simp
        rw [hts]
        exact hsfx sfx
    | value v t =>
      set st2 : MainState :=
        { st with d := Data.set (Data.set st.d v.typeOf v) t v } with hst2
      have hred : mainLoop (Step.value v t :: rest') st = mainLoop rest' st2 := rfl
      have hmono2 : ∀ u, (Data.get st.d u).isSome → (Data.get st2.d u).isSome := by
        intro u hu
        exact Data.isSome_set _ _ _ _ (Data.isSome_set _ _ _ _ hu)
      have hargs' : Covers st2.d (argTypes rest') := by
        intro u hu
        exact hmono2 u (hargs u (mem_argTypes_cons hu))
      have hcov' : Covers st2.d (Func.typesAvailable ⟨ctx ++ [Step.value v t]⟩) := by
        rw [typesAvailable_snoc]
        intro u hu
        rcases List.mem_append.mp hu with hu | hu
        · exact hmono2 u (hcov u hu)
        · simp only [stepProvides, List.mem_cons, List.mem_singleton,
            List.not_mem_nil, or_false] at hu
          rcases hu with rfl | rfl
          · by_cases ht : v.typeOf = t
            · rw [ht]
              simp [hst2, Data.get_set_self]
            · simp only [hst2]
              rw [Data.get_set_ne _ _ _ _ ht]
              simp [Data.get_set_self]
          · simp [hst2, Data.get_set_self]
      obtain ⟨st', a', hdone, hle, hmono, hposts', herr', hpostacc, hstack,
        herrh, habort⟩ :=
        ih (ctx ++ [Step.value v t]) st2 hval'
          (fun u hu => hwf u (by simp [hu])) hargs' hcov'
          (fun f hf => ⟨(hposts f hf).1, (hposts f hf).2.1,
            (hposts f hf).2.2.monoData hmono2⟩)
          ⟨herr.1, herr.2.1, herr.2.2.monoData hmono2⟩
      refine ⟨st', a' + 1, by rw [hred]; exact hdone, by simpa using hle,
        fun u hu => hmono u (hmono2 u hu), hposts', herr', ?_, ?_, ?_, ?_⟩
      · simpa [postsOf] using hpostacc
      · simpa [preNames] using hstack
      · simpa [lastErrH_cons] using herrh
      · intro hlt
        have hlt' : a' < rest'.length := by simpa using hlt
        obtain ⟨h1, hpend, ⟨g, hg⟩, hsfx⟩ := habort hlt'
        obtain ⟨b, rfl⟩ : ∃ b, a' = b + 1 := ⟨a' - 1, by omega⟩
        refine ⟨by omega, hpend, ⟨g, by simpa using hg⟩, ?_⟩
        intro sfx
        have hts : (Step.value v t :: rest').take (b + 1 + 1) ++ sfx
            = Step.value v t :: (rest'.take (b + 1) ++ sfx) := by simp
        rw [hts]
        exact hsfx sfx
    | post f =>
      set st2 : MainState := { st with posts := st.posts ++ [f] } with hst2
      have hred : mainLoop (Step.post f :: rest') st = mainLoop rest' st2 := rfl
      obtain ⟨houts, hins⟩ := hs
      have hfin : InsOK st.d f := by
        intro u hu
        rcases List.mem_cons.mp (hins u hu) with rfl | hmem
        · exact Or.inl rfl
        · exact Or.inr (hcov u hmem)
      have hposts2 : ∀ g ∈ st2.posts, g.outs = [] ∧ g.WF ∧ InsOK st2.d g := by
        intro g hg
        rcases List.mem_append.mp hg with hg | hg
        · exact hposts g hg
        · simp only [List.mem_singleton] at hg
          subst hg
          exact ⟨houts, hwf (Step.post g) (by simp), hfin⟩
      have hcov' : Covers st2.d (Func.typesAvailable ⟨ctx ++ [Step.post f]⟩) := by
        rw [typesAvailable_snoc]
        intro u hu
        rcases List.mem_append.mp hu with hu | hu
        · exact hcov u hu
        · simp [stepProvides] at hu
      obtain ⟨st', a', hdone, hle, hmono, hposts', herr', hpostacc, hstack,
        herrh, habort⟩ :=
        ih (ctx ++ [Step.post f]) st2 hval'
          (fun u hu => hwf u (by simp [hu]))
          (fun u hu => hargs u (mem_argTypes_cons hu)) hcov' hposts2 herr
      refine ⟨st', a' + 1, by rw [hred]; exact hdone, by simpa using hle,
        hmono, hposts', herr', ?_, ?_, ?_, ?_⟩
      · rw [hpostacc]
        simp [hst2, postsOf, List.append_assoc]
      · simpa [preNames] using hstack
      · simpa [lastErrH_cons] using herrh
      · intro hlt
        have hlt' : a' < rest'.length := by simpa using hlt
        obtain ⟨h1, hpend, ⟨g, hg⟩, hsfx⟩ := habort hlt'
        obtain ⟨b, rfl⟩ : ∃ b, a' = b + 1 := ⟨a' - 1, by omega⟩
        refine ⟨by omega, hpend, ⟨g, by simpa using hg⟩, ?_⟩
        intro sfx
        have hts : (Step.post f :: rest').take (b + 1 + 1) ++ sfx
            = Step.post f :: (rest'.take (b + 1) ++ sfx) := by simp
        rw [hts]
        exact hsfx sfx
    | errh f =>
      set st2 : MainState := { st with errH := f } with hst2
      have hred : mainLoop (Step.errh f :: rest') st = mainLoop rest' st2 := rfl
      obtain ⟨houts, hins⟩ := hs
      have hfin : InsOK st.d f := by
        intro u hu
        rcases List.mem_cons.mp (hins u hu) with rfl | hmem
        · exact Or.inl rfl
        · exact Or.inr (hcov u hmem)
      have hcov' : Covers st2.d (Func.typesAvailable ⟨ctx ++ [Step.errh f]⟩) := by
        rw [typesAvailable_snoc]
        intro u hu
        rcases List.mem_append.mp hu with hu | hu
        · exact hcov u hu
        · simp [stepProvides] at hu
      obtain ⟨st', a', hdone, hle, hmono, hposts', herr', hpostacc, hstack,
        herrh, habort⟩ :=
        ih (ctx ++ [Step.errh f]) st2 hval'
          (fun u hu => hwf u (by simp [hu]))
          (fun u hu => hargs u (mem_argTypes_cons hu)) hcov' hposts
          ⟨houts, hwf (Step.errh f) (by simp), hfin⟩
      refine ⟨st', a' + 1, by rw [hred]; exact hdone, by simpa using hle,
        hmono, hposts', herr', ?_, ?_, ?_, ?_⟩
      · simpa [postsOf] using hpostacc
      · simpa [preNames] using hstack
      · rw [herrh]
        rfl
      · intro hlt
        have hlt' : a' < rest'.length := by simpa using hlt
        obtain ⟨h1, hpend, ⟨g, hg⟩, hsfx⟩ := habort hlt'
        obtain ⟨b, rfl⟩ : ∃ b, a' = b + 1 := ⟨a' - 1, by omega⟩
        refine ⟨by omega, hpend, ⟨g, by simpa using hg⟩, ?_⟩
        intro sfx
        have hts : (Step.errh f :: rest').take (b + 1 + 1) ++ sfx
            = Step.errh f :: (rest'.take (b + 1) ++ sfx) := by simp
        rw [hts]
        exact hsfx sfx
    | pre f =>
      have hfins : ∀ u ∈ f.ins, (Data.get st.d u).isSome := fun u hu =>
        hcov u (hs u hu)
      obtain ⟨vals, d', hvals, hcall, hbody⟩ := callStep_char f st.d st.stack hfins
      have hmonoc : ∀ u, (Data.get st.d u).isSome → (Data.get d' u).isSome :=
        callStep_mono f st.d st.stack d' _ hcall
      have hred : mainLoop (Step.pre f :: rest') st
          = match callStep f st.d st.stack with
            | .inject stack t => .inject stack t
            | .ok d' stack' =>
              if hasPendingError d' then .done { st with d := d', stack := stack' }
              else mainLoop rest' { st with d := d', stack := stack' } := rfl
      rcases hpend : hasPendingError d' with _ | _
      · -- no pending error: the loop continues
        have hretcase : ∃ outs, f.body vals = .ret outs ∧ d' = bindOuts outs st.d := by
          rcases hbody with h | ⟨v, hv, hd⟩
          · exact h
          · exfalso
            rw [hd, hasPendingError_set_err] at hpend
            cases hpend
        obtain ⟨outs, hret, hd'⟩ := hretcase
        set st2 : MainState := { st with d := d', stack := st.stack ++ [⟨f.name, vals⟩] }
          with hst2
        have hwff : f.WF := hwf (Step.pre f) (by simp)
        have houtsTy : outs.map Val.typeOf = f.outs := hwff vals outs hret
        have hcov' : Covers st2.d (Func.typesAvailable ⟨ctx ++ [Step.pre f]⟩) := by
          rw [typesAvailable_snoc]
          intro u hu
          rcases List.mem_append.mp hu with hu | hu
          · exact hmonoc u (hcov u hu)
          · simp only [stepProvides] at hu
            rw [← houtsTy] at hu
            rw [hst2]
            simp only [hd']
            exact bindOuts_covers_outs outs st.d u hu
        obtain ⟨st', a', hdone, hle, hmono, hposts', herr', hpostacc, hstack,
          herrh, habort⟩ :=
          ih (ctx ++ [Step.pre f]) st2 hval'
            (fun u hu => hwf u (by simp [hu]))
            (fun u hu => hmonoc u (hargs u (mem_argTypes_cons hu))) hcov'
            (fun g hg => ⟨(hposts g hg).1, (hposts g hg).2.1,
              (hposts g hg).2.2.monoData hmonoc⟩)
            ⟨herr.1, herr.2.1, herr.2.2.monoData hmonoc⟩
        refine ⟨st', a' + 1, ?_, by simpa using hle,
          fun u hu => hmono u (hmonoc u hu), hposts', herr', ?_, ?_, ?_, ?_⟩
        · rw [hred, hcall]
          simp only [hpend, Bool.false_eq_true, if_false]
          exact hdone
        · simpa [postsOf] using hpostacc
        · rw [hstack]
          simp [hst2, preNames]
        · simpa [lastErrH_cons] using herrh
        · intro hlt
          have hlt' : a' < rest'.length := by simpa using hlt
          obtain ⟨h1, hpend', ⟨g, hg⟩, hsfx⟩ := habort hlt'
          obtain ⟨b, rfl⟩ : ∃ b, a' = b + 1 := ⟨a' - 1, by omega⟩
          refine ⟨by omega, hpend', ⟨g, by simpa using hg⟩, ?_⟩
          intro sfx
          have hts : (Step.pre f :: rest').take (b + 1 + 1) ++ sfx
              = Step.pre f :: (rest'.take (b + 1) ++ sfx) := by simp
          rw [hts]
          have hred2 : mainLoop (Step.pre f :: (rest'.take (b + 1) ++ sfx)) st
              = match callStep f st.d st.stack with
                | .inject stack t => .inject stack t
                | .ok d2 stack2 =>
                  if hasPendingError d2 then
                    .done { st with d := d2, stack := stack2 }
                  else mainLoop (rest'.take (b + 1) ++ sfx)
                    { st with d := d2, stack := stack2 } := rfl
          rw [hred2, hcall]
          simp only [hpend, Bool.false_eq_true, if_false]
          exact hsfx sfx
      · -- pending error after the call: the loop breaks here
        refine ⟨{ st with d := d', stack := st.stack ++ [⟨f.name, vals⟩] }, 1,
          ?_, by simp, hmonoc, ?_, ?_, ?_, ?_, ?_, ?_⟩
        · rw [hred, hcall]
          simp only [hpend, if_true]
        · intro g hg
          exact ⟨(hposts g hg).1, (hposts g hg).2.1,
            (hposts g hg).2.2.monoData hmonoc⟩
        · exact ⟨herr.1, herr.2.1, herr.2.2.monoData hmonoc⟩
        · simp [postsOf]
        · simp [preNames]
        · rfl
        · intro _
          refine ⟨Nat.le_refl 1, hpend, ⟨f, rfl⟩, ?_⟩
          intro sfx
          have hts : (Step.pre f :: rest').take 1 ++ sfx = Step.pre f :: sfx := by
            simp
          rw [hts]
          have hred2 : mainLoop (Step.pre f :: sfx) st
              = match callStep f st.d st.stack with
                | .inject stack t => .inject stack t
                | .ok d2 stack2 =>
                  if hasPendingError d2 then
                    .done { st with d := d2, stack := stack2 }
                  else mainLoop sfx { st with d := d2, stack := stack2 } := rfl
          rw [hred2, hcall]
          simp only [hpend, if_true]

end Chain

namespace Chain

/-! ### The defer pass and the whole of Run -/

theorem postLoop_spec (fs : List HFunc) (d : Data) (stack : List CallRec)
    (hfs : ∀ f ∈ fs, f.outs = [] ∧ f.WF ∧ InsOK d f)
    (herr : (Data.get d errorType).isSome) :
    ∃ d' stack', postLoop fs d stack = .ok d' stack'
      ∧ stack'.map CallRec.name
          = stack.map CallRec.name ++ fs.map HFunc.name
      ∧ (∀ t, (Data.get d t).isSome → (Data.get d' t).isSome)
      ∧ (Data.get d' errorType).isSome := by
  induction fs generalizing d stack with
  | nil => exact ⟨d, stack, rfl, by simp, fun t ht => ht, herr⟩
  | cons f fs' ih =>
    have hins : ∀ u ∈ f.ins, (Data.get d u).isSome := by
      intro u hu
      rcases (hfs f (by simp)).2.2 u hu with rfl | hsome
      · exact herr
      · exact hsome
    obtain ⟨vals, d1, hvals, hcall, hbody⟩ := callStep_char f d stack hins
    have hmono1 := callStep_mono f d stack d1 _ hcall
    have herr1 : (Data.get d1 errorType).isSome := hmono1 _ herr
    obtain ⟨d', stack', hdone, hnames, hmono, herr'⟩ :=
      ih d1 (stack ++ [⟨f.name, vals⟩])
        (fun g hg => ⟨(hfs g (by simp [hg])).1, (hfs g (by simp [hg])).2.1,
          ((hfs g (by simp [hg])).2.2).monoData hmono1⟩)
        herr1
    refine ⟨d', stack', ?_, ?_, fun t ht => hmono t (hmono1 t ht), herr'⟩
    · simp only [postLoop, hcall]
      exact hdone
    · rw [hnames]
      simp

/-- Master lemma for `Run` on a chain that passed construction-time
validation, with well-formed handler bodies and accepted arguments:
the run returns normally (no panic escapes and `Run` returns `nil`),
and the executed trace is exactly a prefix of PRE handlers in
registration order, then at most one error-handler call, then the
POST handlers encountered in the prefix in reverse registration order;
the prefix is proper only when a PRE call left a pending error, and in
that case the error handler (the last `ERR` step walked, or the
process default) did run, and the steps after the abort point never
execute: replacing them by any steps with the same declared `ARG`
types leaves the whole run unchanged. -/
theorem run_master (c : Func) (args : List (Option Val)) (d0 : Data)
    (hval : c.ValidCons) (hwf : c.BodiesWF)
    (hargs : c.processRunArgs args = .ok d0) :
    ∃ a errPart,
      a ≤ c.steps.length
      ∧ (c.Run args).outcome = .ok
      ∧ (c.Run args).stack.map CallRec.name
          = preNames (c.steps.take a) ++ errPart
            ++ ((postsOf (c.steps.take a)).reverse).map HFunc.name
      ∧ (errPart = []
          ∨ errPart = [(lastErrH defaultErrorHandler (c.steps.take a)).name])
      ∧ (a < c.steps.length →
          1 ≤ a ∧ (∃ f, c.steps.get? (a - 1) = some (.pre f))
          ∧ errPart = [(lastErrH defaultErrorHandler (c.steps.take a)).name]
          ∧ ∀ sfx, argTypes sfx = argTypes (c.steps.drop a) →
              Func.Run ⟨c.steps.take a ++ sfx⟩ args = c.Run args) := by
  have hcov0 : Covers d0 (argTypes c.steps) :=
    (bindArgs_covers (argTypes c.steps) args 0 [] d0 hargs).1
  have hdefWF : defaultErrorHandler.WF := by
    intro vals outs h
    cases h
  have hdefIns : InsOK d0 defaultErrorHandler := by
    intro t ht
    simp only [defaultErrorHandler, List.mem_singleton] at ht
    subst ht
    exact Or.inl rfl
  obtain ⟨st', a, hdone, hle, hmono, hposts', herr', hpostacc, hstack, herrh,
    habort⟩ :=
    mainLoop_spec c.steps [] ⟨d0, [], defaultErrorHandler, []⟩ hval hwf hcov0
      (by intro t ht; simp [Func.typesAvailable] at ht)
      (by intro f hf; simp at hf)
      ⟨rfl, hdefWF, hdefIns⟩
  simp only at hpostacc hstack
  rcases hpend : hasPendingError st'.d with _ | _
  · -- no pending error: bind the typed-nil error, then run the defers
    set d1 : Data := Data.set st'.d errorType (.nilOf errorType) with hd1
    have herrp : (Data.get d1 errorType).isSome := by
      simp [hd1, Data.get_set_self]
    have hmono1 : ∀ t, (Data.get st'.d t).isSome → (Data.get d1 t).isSome :=
      fun t ht => Data.isSome_set _ _ _ _ ht
    obtain ⟨d2, stack2, hpost, hnames2, hmono2, _⟩ :=
      postLoop_spec st'.posts.reverse d1 st'.stack
        (fun g hg => by
          have hg' := List.mem_reverse.mp hg
          exact ⟨(hposts' g hg').1, (hposts' g hg').2.1,
            ((hposts' g hg').2.2).monoData hmono1⟩)
        herrp
    have hrun : c.Run args = ⟨.ok, d2, stack2⟩ := by
      simp only [Func.Run, hargs, hdone, hpend, Bool.false_eq_true, if_false,
        hpost]
    refine ⟨a, [], hle, by rw [hrun], ?_, Or.inl rfl, ?_⟩
    · rw [hrun]
      simp only [hnames2, hstack, hpostacc]
      simp [List.map_reverse]
    · intro hlt
      have := (habort hlt).2.1
      rw [hpend] at this
      cases this
  · -- a pending error exists: the active error handler runs first
    have hpsome : (Data.get st'.d errorType).isSome := pending_isSome _ hpend
    have hins : ∀ u ∈ st'.errH.ins, (Data.get st'.d u).isSome := by
      intro u hu
      rcases herr'.2.2 u hu with rfl | hsome
      · exact hpsome
      · exact hsome
    obtain ⟨vals, d1, hvals, hcallE, hbodyE⟩ :=
      callStep_char st'.errH st'.d st'.stack hins
    have hmono1 := callStep_mono st'.errH st'.d st'.stack d1 _ hcallE
    have herrp : (Data.get d1 errorType).isSome := hmono1 _ hpsome
    obtain ⟨d2, stack2, hpost, hnames2, hmono2, _⟩ :=
      postLoop_spec st'.posts.reverse d1
        (st'.stack ++ [⟨st'.errH.name, vals⟩])
        (fun g hg => by
          have hg' := List.mem_reverse.mp hg
          exact ⟨(hposts' g hg').1, (hposts' g hg').2.1,
            ((hposts' g hg').2.2).monoData hmono1⟩)
        herrp
    have hrun : c.Run args = ⟨.ok, d2, stack2⟩ := by
      simp only [Func.Run, hargs, hdone, hpend, if_true, hcallE, hpost]
    refine ⟨a, [st'.errH.name], hle, by rw [hrun], ?_, ?_, ?_⟩
    · rw [hrun]
      simp only [hnames2]
      simp only [List.map_append, hstack, hpostacc]
      simp [List.map_reverse, List.append_assoc]
    · right
      rw [herrh]
    · intro hlt
      obtain ⟨h1, _, hex, hsfx⟩ := habort hlt
      refine ⟨h1, hex, by rw [herrh], ?_⟩
      intro sfx hsame
      have hargs2 : Func.processRunArgs ⟨c.steps.take a ++ sfx⟩ args = .ok d0 := by
        show bindArgs (argTypes (c.steps.take a ++ sfx)) args 0 [] = .ok d0
        rw [argTypes_append, hsame, ← argTypes_append, List.take_append_drop]
        exact hargs
      have hrun2 : Func.Run ⟨c.steps.take a ++ sfx⟩ args = ⟨.ok, d2, stack2⟩ := by
        simp only [Func.Run, hargs2, hsfx sfx, hpend, if_true, hcallE, hpost]
      rw [hrun2, hrun]

end Chain

namespace Chain

/-! ### Concrete handlers for demonstrations and witnesses -/

/-- A handler with no inputs and no outputs. -/
def hSay (s : String) : HFunc := ⟨s, [], [], fun _ => .ret []⟩

/-- A handler returning a non-nil error. -/
def hFail (s : String) (n : Nat) : HFunc :=
  ⟨s, [], [errorType], fun _ => .ret [.errv (.mkErr n)]⟩

/-- A handler accepting an `error` and returning nothing. -/
def hCapture (s : String) : HFunc := ⟨s, [errorType], [], fun _ => .ret []⟩

/-- A handler that panics with a fixed value. -/
def hPanics (s : String) (v : Val) : HFunc := ⟨s, [], [], fun _ => .panics v⟩

/-- A handler accepting an `error` that panics with it. -/
def hPanicsOnErr (s : String) : HFunc :=
  ⟨s, [errorType], [], fun vals => .panics (vals.headD (.nilOf errorType))⟩

theorem hSay_WF (s : String) : (hSay s).WF := by
  intro vals outs h
  injection h with h'
  subst h'
  rfl

theorem hFail_WF (s : String) (n : Nat) : (hFail s n).WF := by
  intro vals outs h
  injection h with h'
  subst h'
  rfl

theorem hCapture_WF (s : String) : (hCapture s).WF := by
  intro vals outs h
  injection h with h'
  subst h'
  rfl

theorem hPanics_WF (s : String) (v : Val) : (hPanics s v).WF := by
  intro vals outs h
  cases h

theorem hPanicsOnErr_WF (s : String) : (hPanicsOnErr s).WF := by
  intro vals outs h
  cases h

/-- The panicked value used in the demonstrations. -/
def pv9 : Val := .prim ⟨9, .basic⟩ 99

/-- The panic-capture scenario of the repository's tests:
error handler, three handlers, a defer, then a panicking handler. -/
def cPanicDemo : Func :=
  ⟨[.errh (hCapture "cap"), .pre (hSay "a"), .pre (hSay "b"), .pre (hSay "c"),
    .post (hSay "cdef"), .pre (hPanics "boom" pv9)]⟩

/-! ### Claim C1: panics in PRE handlers cannot escape Run -/

/-- C1: for any chain constructed without error (any `build` script that
succeeds, with Go-well-formed handler bodies) and accepted arguments,
`Run` finishes normally — no panic escapes, even when an invoked PRE
handler panics (first conjunct).  A panicking call is recovered and the
panicked value is packaged with the executed steps, most recent first,
into a `PanicError` stored as the pending error (second conjunct).  In
the test scenario, the active error handler receives exactly that
`PanicError` — with middleware stack `boom, c, b, a` — the deferred
handler still runs after it, and the run returns normally (third
conjunct). -/
theorem run_never_panics :
    (∀ (ops : List BuildOp) (c : Func) (args : List (Option Val)) (d0 : Data),
        build ⟨[]⟩ ops = .ok c → (∀ op ∈ ops, opWF op) →
        c.processRunArgs args = .ok d0 →
        (c.Run args).outcome = .ok)
    ∧ (∀ (f : HFunc) (d : Data) (stack : List CallRec) (vals : List Val) (v : Val),
        resolveIns d f.ins = .ok vals → f.body vals = .panics v →
        callStep f d stack
          = .ok (Data.set d errorType
                (.errv (.panicErr v (mwStackOf (stack ++ [⟨f.name, vals⟩])))))
              (stack ++ [⟨f.name, vals⟩]))
    ∧ ((cPanicDemo.Run []).outcome = .ok
        ∧ (cPanicDemo.Run []).stack.map (fun r => (r.name, r.args))
            = [("a", []), ("b", []), ("c", []), ("boom", []),
               ("cap", [.errv (.panicErr pv9 ["boom", "c", "b", "a"])]),
               ("cdef", [])]) := by
  refine ⟨?_, ?_, rfl, rfl⟩
  · intro ops c args d0 hbuild hops hargs
    obtain ⟨hval, hwf⟩ := build_valid ops ⟨[]⟩ c hbuild trivial
      (by intro s hs; simp at hs) hops
    obtain ⟨a, errPart, _, hok, _⟩ := run_master c args d0 hval hwf hargs
    exact hok
  · intro f d stack vals v hres hb
    simp [callStep, hres, hb]

/-- Witness for C1: a concretely built chain with a panicking handler
runs to completion, and the recovered panic is stored as a
`PanicError`. -/
theorem run_never_panics_witness :
    ((Func.mk [.errh (hCapture "cap"), .pre (hPanics "boom" pv9)]).Run
        []).outcome = .ok
    ∧ callStep (hPanics "boom" pv9) [] []
        = .ok (Data.set [] errorType
              (.errv (.panicErr pv9 (mwStackOf [⟨"boom", []⟩]))))
            [⟨"boom", []⟩] := by
  constructor
  · refine run_never_panics.1
      [.onErr (hCapture "cap"), .thenOps [hPanics "boom" pv9]]
      ⟨[.errh (hCapture "cap"), .pre (hPanics "boom" pv9)]⟩ [] [] rfl ?_ rfl
    intro op hop
    rcases List.mem_cons.mp hop with rfl | hop
    · exact hCapture_WF "cap"
    · rcases List.mem_cons.mp hop with rfl | hop
      · intro g hg
        rcases List.mem_cons.mp hg with rfl | hg
        · exact hPanics_WF "boom" pv9
        · simp at hg
      · simp at hop
  · exact run_never_panics.2.1 (hPanics "boom" pv9) [] [] [] pv9 rfl rfl

/-! ### Claim C3: phase ordering within a single run -/

/-- The deferred-order scenario of the repository's tests. -/
def cOrderDemo : Func :=
  ⟨[.pre (hSay "a"), .pre (hSay "b"), .post (hSay "f"), .post (hSay "e"),
    .pre (hSay "c"), .post (hSay "d")]⟩

/-- A chain that aborts mid-way: an error handler, a PRE, a POST, a
PRE returning a non-nil error, then a POST and a PRE registered after
the abort point. -/
def cAbortDemo : Func :=
  ⟨[.errh (hCapture "cap"), .pre (hSay "a"), .post (hSay "d1"),
    .pre (hFail "fails" 7), .post (hSay "d2"), .pre (hSay "never")]⟩

/-- C3: within one run of a validated chain with accepted arguments,
the executed trace is exactly: the PRE handlers of a prefix `take a` of
the chain in registration order, then the active error handler at most
once (exactly once iff a pending error exists, and between the PRE and
POST phases), then every POST handler encountered in that prefix
exactly once in reverse registration order, whether or not an error
occurred.  The prefix is proper only when execution stopped at a PRE
step that left a pending error, and then the main phase really stopped
there: replacing everything after the abort point by arbitrary steps
(with the same declared `ARG` types) yields the identical run, so the
PRE and POST steps registered after the abort point never execute
(first conjunct).  Concretely, in `cAbortDemo` the PRE `fails` returns
a non-nil error: the trace is exactly `a, fails, cap, d1` — the error
handler runs between the phases, the POST `d1` collected before the
abort still runs, and neither the POST `d2` nor the PRE `never`
registered after the abort point is ever invoked (second conjunct). -/
theorem run_phase_ordering :
    (∀ (c : Func) (args : List (Option Val)) (d0 : Data),
        c.ValidCons → c.BodiesWF → c.processRunArgs args = .ok d0 →
        ∃ a errPart,
          a ≤ c.steps.length
          ∧ (c.Run args).outcome = .ok
          ∧ (c.Run args).stack.map CallRec.name
              = preNames (c.steps.take a) ++ errPart
                ++ ((postsOf (c.steps.take a)).reverse).map HFunc.name
          ∧ (errPart = []
              ∨ errPart = [(lastErrH defaultErrorHandler (c.steps.take a)).name])
          ∧ (a < c.steps.length →
              1 ≤ a ∧ (∃ f, c.steps.get? (a - 1) = some (.pre f))
              ∧ errPart = [(lastErrH defaultErrorHandler (c.steps.take a)).name]
              ∧ ∀ sfx, argTypes sfx = argTypes (c.steps.drop a) →
                  Func.Run ⟨c.steps.take a ++ sfx⟩ args = c.Run args))
    ∧ ((cAbortDemo.Run []).outcome = .ok
        ∧ (cAbortDemo.Run []).stack.map CallRec.name = ["a", "fails", "cap", "d1"]
        ∧ "never" ∉ (cAbortDemo.Run []).stack.map CallRec.name
        ∧ "d2" ∉ (cAbortDemo.Run []).stack.map CallRec.name) := by
  have htr : (cAbortDemo.Run []).stack.map CallRec.name
      = ["a", "fails", "cap", "d1"] := rfl
  refine ⟨?_, rfl, htr, ?_, ?_⟩
  · intro c args d0 hval hwf hargs
    exact run_master c args d0 hval hwf hargs
  · rw [htr]; decide
  · rw [htr]; decide

/-- Witness for C3 at the deferred-order test chain: the universal part
applied at `cOrderDemo` with no arguments. -/
theorem run_phase_ordering_witness :
    ∃ a errPart,
      a ≤ cOrderDemo.steps.length
      ∧ (cOrderDemo.Run []).outcome = .ok
      ∧ (cOrderDemo.Run []).stack.map CallRec.name
          = preNames (cOrderDemo.steps.take a) ++ errPart
            ++ ((postsOf (cOrderDemo.steps.take a)).reverse).map HFunc.name
      ∧ (errPart = []
          ∨ errPart
              = [(lastErrH defaultErrorHandler (cOrderDemo.steps.take a)).name])
      ∧ (a < cOrderDemo.steps.length →
          1 ≤ a ∧ (∃ f, cOrderDemo.steps.get? (a - 1) = some (.pre f))
          ∧ errPart
              = [(lastErrH defaultErrorHandler (cOrderDemo.steps.take a)).name]
          ∧ ∀ sfx, argTypes sfx = argTypes (cOrderDemo.steps.drop a) →
              Func.Run ⟨cOrderDemo.steps.take a ++ sfx⟩ [] = cOrderDemo.Run []) := by
  refine run_phase_ordering.1 cOrderDemo [] [] ?_ ?_ rfl
  · exact ⟨by intro t ht; simp [hSay] at ht,
      by intro t ht; simp [hSay] at ht,
      ⟨rfl, by intro t ht; simp [hSay] at ht⟩,
      ⟨rfl, by intro t ht; simp [hSay] at ht⟩,
      by intro t ht; simp [hSay] at ht,
      ⟨rfl, by intro t ht; simp [hSay] at ht⟩,
      trivial⟩
  · intro s hs
    simp only [cOrderDemo, List.mem_cons] at hs
    rcases hs with rfl | rfl | rfl | rfl | rfl | rfl | hs
    · exact hSay_WF "a"
    · exact hSay_WF "b"
    · exact hSay_WF "f"
    · exact hSay_WF "e"
    · exact hSay_WF "c"
    · exact hSay_WF "d"
    · simp at hs

end Chain

namespace Chain

/-! ### Claim C8: panics in error handlers and defers -/

/-- A chain whose error handler itself panics. -/
def cErrPanicDemo : Func :=
  ⟨[.errh (hPanicsOnErr "eh"), .pre (hFail "fails" 7)]⟩

/-- Counterexample to C8 as stated: when the error handler panics, the
panic is recovered and `Run` returns normally — but the process-level
default error handler (`chain.DefaultErrorHandler`) is never invoked:
the trace is exactly the failing handler followed by the panicking
error handler. -/
theorem errhandler_panic_not_logged_cex :
    (cErrPanicDemo.Run []).outcome = .ok
    ∧ (cErrPanicDemo.Run []).stack.map CallRec.name = ["fails", "eh"]
    ∧ (((cErrPanicDemo.Run []).stack.map CallRec.name).contains
        "chain.DefaultErrorHandler") = false := ⟨rfl, rfl, rfl⟩

/-- A chain with a panicking deferred handler followed (in execution
order) by another deferred handler that accepts the error. -/
def cDeferPanicDemo : Func :=
  ⟨[.post (hCapture "d1"), .post (hPanicsOnErr "d2"), .pre (hSay "m")]⟩

/-- C8 (amended): a panic inside the error handler or inside a deferred
handler does not propagate out of `Run` — any validated chain with
accepted arguments finishes with `Run` returning normally, whatever the
handler bodies do (first conjunct).  The recovered panic is stored as
the pending `error` binding, where deferred handlers executed later can
observe it, but the process-level default error handler is not invoked:
in the demonstration, defer `d2` panics with the typed-nil error it
received, the remaining defer `d1` receives the stored `PanicError`
with middleware stack `d2, m`, and `chain.DefaultErrorHandler` never
appears in the trace (second conjunct). -/
theorem handler_panic_contained :
    (∀ (c : Func) (args : List (Option Val)) (d0 : Data),
        c.ValidCons → c.BodiesWF → c.processRunArgs args = .ok d0 →
        (c.Run args).outcome = .ok)
    ∧ ((cDeferPanicDemo.Run []).outcome = .ok
        ∧ (cDeferPanicDemo.Run []).stack.map (fun r => (r.name, r.args))
            = [("m", []),
               ("d2", [.nilOf errorType]),
               ("d1", [.errv (.panicErr (.nilOf errorType) ["d2", "m"])])]
        ∧ (((cDeferPanicDemo.Run []).stack.map CallRec.name).contains
            "chain.DefaultErrorHandler") = false) := by
  refine ⟨?_, rfl, rfl, rfl⟩
  intro c args d0 hval hwf hargs
  obtain ⟨a, errPart, _, hok, _⟩ := run_master c args d0 hval hwf hargs
  exact hok

/-- Witness for C8 (amended) at the defer-panic chain. -/
theorem handler_panic_contained_witness :
    (cDeferPanicDemo.Run []).outcome = .ok := by
  refine handler_panic_contained.1 cDeferPanicDemo [] [] ?_ ?_ rfl
  · exact ⟨⟨rfl, by intro t ht; simp [hCapture] at ht; simp [ht]⟩,
      ⟨rfl, by intro t ht; simp [hPanicsOnErr] at ht; simp [ht]⟩,
      by intro t ht; simp [hSay] at ht,
      trivial⟩
  · intro s hs
    simp only [cDeferPanicDemo, List.mem_cons] at hs
    rcases hs with rfl | rfl | rfl | hs
    · exact hCapture_WF "d1"
    · exact hPanicsOnErr_WF "d2"
    · exact hSay_WF "m"
    · simp at hs

/-! ### Claim C9: outputs of a failing handler are bound before the abort -/

/-- A PRE handler producing a value of type `v.typeOf` together with a
non-nil error. -/
def hProduce (v : Val) (e : GoErr) : HFunc :=
  ⟨"f", [], [v.typeOf, errorType], fun _ => .ret [v, .errv e]⟩

/-- An error handler consuming a value of type `t` and the error. -/
def hRecv (t : Ty) : HFunc := ⟨"h", [t, errorType], [], fun _ => .ret []⟩

/-- C9: invoking a handler binds every output into the per-run type map
under its static type — the characterisation of a lookup after
`bindOuts` (first conjunct); consequently, when a PRE handler returns a
non-nil error together with another output, the main phase aborts with
the other output already bound and the active error handler receives
both the output value and the error (second conjunct). -/
theorem outputs_bound_on_error :
    (∀ (outs : List Val) (d : Data) (t : Ty),
        Data.get (bindOuts outs d) t
          = match outs.reverse.find? (fun v => v.typeOf == t) with
            | some v => some v
            | none => Data.get d t)
    ∧ (∀ (v : Val) (e : GoErr), v.typeOf ≠ errorType →
        (Func.mk [.errh (hRecv v.typeOf), .pre (hProduce v e)]).Run []
          = ⟨.ok, [(v.typeOf, v), (errorType, .errv e)],
              [⟨"f", []⟩, ⟨"h", [v, .errv e]⟩]⟩) := by
  constructor
  · exact bindOuts_get
  · intro v e hne
    have hne' : (v.typeOf = errorType) = False := by simp [hne]
    have hte : ∀ e' : GoErr, (Val.errv e').typeOf = errorType := fun _ => rfl
    simp only [Func.Run, Func.processRunArgs, argTypes, List.filterMap_nil,
      List.filterMap_cons, bindArgs, mainLoop, callStep, resolveIns,
      hProduce, hRecv, bindOuts, List.foldl, Data.set, hne', if_false,
      hasPendingError, Data.get, if_true, Val.isNil, Bool.not_false,
      if_true, postLoop]
    simp [Data.get, Data.set, hne', hasPendingError, Val.isNil, resolveIns,
      callStep, postLoop, hte]

/-- Witness for C9 at a concrete produced value and error. -/
theorem outputs_bound_on_error_witness :
    Data.get (bindOuts [Val.prim tA 5] []) tA = some (Val.prim tA 5)
    ∧ (Func.mk [.errh (hRecv tA), .pre (hProduce (Val.prim tA 5) (.mkErr 3))]).Run
        []
        = ⟨.ok, [(tA, Val.prim tA 5), (errorType, .errv (.mkErr 3))],
            [⟨"f", []⟩, ⟨"h", [Val.prim tA 5, .errv (.mkErr 3)]⟩]⟩ := by
  constructor
  · rw [outputs_bound_on_error.1 [Val.prim tA 5] [] tA]
    rfl
  · exact outputs_bound_on_error.2 (Val.prim tA 5) (.mkErr 3) (by decide)

end Chain

namespace Web

/-!
Model of the path-pattern router (`mux`, `router` in the `sandwich`
package).  Terminal handlers are identified by `Nat` ids.  The Go maps
`mux.static` and `router.byMethod` become association lists iterated in
insertion order (Go map iteration order is unspecified; the code only
iterates `mux.static` in `matchSuffix` and `router.subRouters` in
`match`, where registration rules keep at most one entry applicable).
Out-of-range slice indexing (`segments[N-depth]` with `N-depth < 0`),
which panics in Go, is modelled by explicit `panicked` outcomes.
`matchPrefix` is named `matchPre` here.
-/

/-- `Params`: the string-to-string parameter map handed to handlers,
with map-assignment overwrite semantics. -/
abbrev Params := List (String × String)

/-- Map assignment `params[k] = v`. -/
def Params.set : Params → String → String → Params
  | [], k, v => [(k, v)]
  | (a, b) :: rest, k, v =>
    if a = k then (k, v) :: rest else (a, b) :: Params.set rest k v

/-- Map lookup `params[k]`. -/
def Params.get : Params → String → Option String
  | [], _ => none
  | (a, b) :: rest, k => if a = k then some b else Params.get rest k

/-- Is `pre` a leading segment of `s` (character lists)? -/
def chHasPre : List Char → List Char → Bool
  | [], _ => true
  | _ :: _, [] => false
  | p :: ps, c :: cs => p == c && chHasPre ps cs

/-- `strings.HasPrefix(s, pre)`, computed on the character data so that
concrete routing computations reduce in proofs. -/
def strHasPre (s pre : String) : Bool := chHasPre pre.data s.data

/-- Drop the first `n` characters of `s`. -/
def strDrop (s : String) (n : Nat) : String := ⟨s.data.drop n⟩

/-- `strings.HasSuffix(s, suf)`. -/
def strHasSuffix (s suf : String) : Bool :=
  chHasPre suf.data.reverse s.data.reverse

/-- Drop the final character (`strings.TrimSuffix` of a one-character
suffix, used for the trailing `*` of a greedy parameter). -/
def strDropLast (s : String) : String := ⟨s.data.dropLast⟩

/-- Split a character list on `/` (`strings.Split` semantics: the empty
list yields one empty field, separators at the ends yield empty
fields). -/
def splitChars : List Char → List (List Char)
  | [] => [[]]
  | c :: cs =>
    if c == '/' then [] :: splitChars cs
    else
      match splitChars cs with
      | [] => [[c]]
      | l :: ls => (c :: l) :: ls

/-- `strings.Split(s, "/")`. -/
def splitSlash (s : String) : List String :=
  (splitChars s.data).map fun l => ⟨l⟩

/-- Concatenate character lists with `/` between them. -/
def joinChars : List (List Char) → List Char
  | [] => []
  | [x] => x
  | x :: xs => x ++ '/' :: joinChars xs

/-- `strings.Join(l, "/")`. -/
def joinSegs (l : List String) : String := ⟨joinChars (l.map String.data)⟩

/-- `strings.ToUpper`, on the character data (`Char.toUpper` only
affects basic latin letters, as in Go for ASCII methods). -/
def strToUpper (s : String) : String := ⟨s.data.map Char.toUpper⟩

/-- A routing-trie node (`mux`): static children (`static`), parameter
children in registration order (`params`, each `(paramName, greedy,
child)`), and an optional terminal handler. -/
inductive Mux where
  | mk (static : List (String × Mux)) (params : List (String × Bool × Mux))
      (handler : Option Nat)
deriving Repr

/-- Static children of a node. -/
def Mux.static : Mux → List (String × Mux)
  | .mk st _ _ => st

/-- Parameter children of a node. -/
def Mux.params : Mux → List (String × Bool × Mux)
  | .mk _ ps _ => ps

/-- Terminal handler of a node. -/
def Mux.handler : Mux → Option Nat
  | .mk _ _ h => h

/-- The empty node (`&mux{static: map[string]*mux{}}`). -/
def emptyMux : Mux := .mk [] [] none

/-- Lookup in a static-children map (`m.static[path]`; nil → `none`). -/
def lookupStatic : List (String × Mux) → String → Option Mux
  | [], _ => none
  | (k, v) :: rest, key => if k = key then some v else lookupStatic rest key

/-- Map assignment `m.static[path] = sub`. -/
def setStatic : List (String × Mux) → String → Mux → List (String × Mux)
  | [], key, sub => [(key, sub)]
  | (k, v) :: rest, key, sub =>
    if k = key then (key, sub) :: rest else (k, v) :: setStatic rest key sub

/-- `entryToInfo`: classify one pattern segment as a static segment
(`::`-escaped or plain) or a parameter (`:name`, `:name*`). -/
def entryToInfo (entry : String) :
    String × Bool × String × Bool :=
  if strHasPre entry "::" then (strDrop entry 1, true, "", false)
  else if ¬ strHasPre entry ":" then (entry, true, "", false)
  else
    let pname :=
      if strHasSuffix (strDrop entry 1) "*" then strDropLast (strDrop entry 1)
      else strDrop entry 1
    ("", false, pname, strHasSuffix entry "*")

/-- `mux.checkAmbiguous`: would the suffix `segments`, registered below
this node, collide with an existing registration?  At the end of the
suffix, a present handler is ambiguous; a static segment descends into
the matching static child if any; a parameter segment checks every
parameter child (the Go loop returns the first failure; with a boolean
result `List.any` is the same). -/
def checkAmbiguous (m : Mux) : List String → Bool
  | [] => m.handler.isSome
  | seg :: rest =>
    let info := entryToInfo seg
    if info.2.1 then
      match lookupStatic m.static info.1 with
      | some child => checkAmbiguous child rest
      | none => false
    else
      m.params.any fun p => checkAmbiguous p.2.2 rest

/-- Registration failure (`PatternConflict` reasons; message text of
the corresponding `fmt.Errorf` in parentheses): pattern without leading
slash ("patterns must begin with /"), duplicate pattern ("repeated
entry"), second greedy parameter ("only one greedy param allowed per
pattern"), repeated parameter name ("param used twice"), a name both
greedy and non-greedy ("param ... is sometimes greedy and sometimes
not"), and an ambiguous route ("ambiguous route"). -/
inductive RegErr where
  | noSlash
  | repeatedEntry
  | multiGreedy (name : String)
  | paramTwice (name : String)
  | sometimesGreedy (name : String)
  | ambiguous
deriving DecidableEq, Repr

/-- Per-registration state (`registerInfo`): parameter names seen on
this pattern and whether a greedy parameter was seen. -/
structure RegInfo where
  seenParams : List String
  seenGreedy : Bool

/-- The scan of `registerParam`'s loop over the existing parameter
children: stop at the first child with the same name (returning the
children before it, the child, and those after), reporting an
ambiguous-route error if any earlier differently-named child has an
ambiguous suffix; if no name matches, every child is checked. -/
def scanParams :
    List (String × Bool × Mux) → String → List String →
    Except RegErr
      (Option (List (String × Bool × Mux) × (String × Bool × Mux)
        × List (String × Bool × Mux)))
  | [], _, _ => .ok none
  | p :: ps, name, remaining =>
    if p.1 = name then .ok (some ([], p, ps))
    else if checkAmbiguous p.2.2 remaining then .error .ambiguous
    else
      match scanParams ps name remaining with
      | .error e => .error e
      | .ok none => .ok none
      | .ok (some (before, q, after)) => .ok (some (p :: before, q, after))

mutual
/-- `registerInfo.registerSegments`: at the end of the pattern install
the handler (a present handler is a repeated entry); otherwise dispatch
on the segment: `::x` a static `:x`, `:x`/`:x*` a parameter, anything
else static. -/
def registerSegments (ri : RegInfo) (m : Mux) (segments : List String)
    (h : Nat) : Except RegErr Mux :=
  match segments with
  | [] =>
    match m with
    | .mk st ps hd =>
      if hd.isSome then .error .repeatedEntry
      else .ok (.mk st ps (some h))
  | next :: remaining =>
    if strHasPre next "::" then registerStatic ri m (strDrop next 1) remaining h
    else if strHasPre next ":" then
      registerParam ri m (strDrop next 1) remaining h
    else registerStatic ri m next remaining h
termination_by (segments.length, 0)
decreasing_by all_goals (simp_wf; omega)

/-- `registerInfo.registerStatic`: recurse into the (possibly fresh)
static child; on success install the updated child, on failure leave
the trie untouched. -/
def registerStatic (ri : RegInfo) (m : Mux) (path : String)
    (remaining : List String) (h : Nat) : Except RegErr Mux :=
  match m with
  | .mk st ps hd =>
    let sub := (lookupStatic st path).getD emptyMux
    match registerSegments ri sub remaining h with
    | .error e => .error e
    | .ok sub' => .ok (.mk (setStatic st path sub') ps hd)
termination_by (remaining.length, 1)
decreasing_by all_goals omega

/-- `registerInfo.registerParam`: reject a second greedy parameter or a
name repeated in this pattern; then scan the existing parameter
children — a same-named child must have the same greediness and
receives the rest of the pattern; otherwise (all earlier children
unambiguous) a fresh child is registered and appended. -/
def registerParam (ri : RegInfo) (m : Mux) (param : String)
    (remaining : List String) (h : Nat) : Except RegErr Mux :=
  match m with
  | .mk st ps hd =>
    let greedy := strHasSuffix param "*"
    let name := if greedy then strDropLast param else param
    if greedy && ri.seenGreedy then .error (.multiGreedy name)
    else if ri.seenParams.contains name then .error (.paramTwice name)
    else
      match scanParams ps name remaining with
      | .error e => .error e
      | .ok (some (before, (pname, pgreedy, pmux), after)) =>
        if pgreedy ≠ greedy then .error (.sometimesGreedy name)
        else
          match registerSegments ri pmux remaining h with
          | .error e => .error e
          | .ok pmux' =>
            .ok (.mk st (before ++ (pname, pgreedy, pmux') :: after) hd)
      | .ok none =>
        let ri' : RegInfo :=
          ⟨name :: ri.seenParams, ri.seenGreedy || greedy⟩
        match registerSegments ri' emptyMux remaining h with
        | .error e => .error e
        | .ok sub => .ok (.mk st (ps ++ [(name, greedy, sub)]) hd)
termination_by (remaining.length, 1)
decreasing_by all_goals omega
end

/-- `mux.Register`: patterns must begin with `/`; split the rest on `/`
and register the segments with fresh per-registration state. -/
def Mux.Register (m : Mux) (pattern : String) (h : Nat) : Except RegErr Mux :=
  if ¬ strHasPre pattern "/" then .error .noSlash
  else registerSegments ⟨[], false⟩ m (splitSlash (strDrop pattern 1)) h

end Web

namespace Web

/-- Result of a prefix match: a handler (or none) plus the updated
parameter map — updates from failed attempts persist, as with the
shared Go map — or an out-of-range indexing panic. -/
inductive MatchOut where
  | res (h : Option Nat) (params : Params)
  | panicked (params : Params)

/-- Result of a suffix match: handler, number of trailing segments
consumed, updated parameters; or a panic. -/
inductive SuffixOut where
  | res (h : Option Nat) (depth : Nat) (params : Params)
  | panicked (params : Params)

/-- Result of one of the child-scanning loops inside `matchSuffix`:
an early `return match, depth`, loop exhaustion, or a panic. -/
inductive ScanOut where
  | found (h : Nat) (depth : Nat) (params : Params)
  | cont (params : Params)
  | panicked (params : Params)

mutual
/-- `mux.matchPrefix`: an exhausted path yields the node's handler; a
static child matching the segment is tried first, then the parameter
children in registration order. -/
def matchPre : Mux → List String → Params → MatchOut
  | .mk _ _ h, [], params => .res h params
  | .mk st ps _, seg :: rest, params =>
    match matchPreStatic st seg rest params with
    | .panicked params' => .panicked params'
    | .res (some hh) params' => .res (some hh) params'
    | .res none params' => matchPreParams ps seg (seg :: rest) rest params'
termination_by m _ _ => sizeOf m

/-- The static-child lookup-and-try of `matchPrefix` (`m.static[path]`
is a unique-key map; a found child's result is final for the static
branch). -/
def matchPreStatic :
    List (String × Mux) → String → List String → Params → MatchOut
  | [], _, _, params => .res none params
  | (k, sub) :: entries, seg, rest, params =>
    if k = seg then matchPre sub rest params
    else matchPreStatic entries seg rest params
termination_by entries _ _ _ => sizeOf entries

/-- The parameter-children loop of `matchPrefix`: in registration
order, a non-greedy child matches the tail and then binds the current
segment; a greedy child suffix-matches the tail and binds the
slash-joined consumed middle (`segments[:N-used]`).  The first child
whose subtree matches wins. -/
def matchPreParams :
    List (String × Bool × Mux) → String → List String → List String →
    Params → MatchOut
  | [], _, _, _, params => .res none params
  | (name, greedy, sub) :: ps, path, segments, rest, params =>
    if greedy then
      match matchSuffix sub rest params with
      | .panicked params' => .panicked params'
      | .res none _ params' => matchPreParams ps path segments rest params'
      | .res (some hh) used params' =>
        .res (some hh)
          (Params.set params' name
            (joinSegs (segments.take (segments.length - used))))
    else
      match matchPre sub rest params with
      | .panicked params' => .panicked params'
      | .res none params' => matchPreParams ps path segments rest params'
      | .res (some hh) params' => .res (some hh) (Params.set params' name path)
termination_by ps _ _ _ _ => sizeOf ps

/-- `mux.matchSuffix`: with no segments left the node's handler matches
zero trailing segments; otherwise scan the static children then the
parameter children; if nothing returned, the node's own handler with
depth 0. -/
def matchSuffix : Mux → List String → Params → SuffixOut
  | .mk st ps h, segments, params =>
    if segments.length = 0 then .res h 0 params
    else
      match matchSuffixStatics st segments params with
      | .panicked params' => .panicked params'
      | .found hh depth params' => .res (some hh) depth params'
      | .cont params' =>
        match matchSuffixParams ps segments params' with
        | .panicked params'' => .panicked params''
        | .found hh depth params'' => .res (some hh) depth params''
        | .cont params'' => .res h 0 params''
termination_by m _ _ => sizeOf m

/-- The static loop of `matchSuffix`: recursively suffix-match each
child on the same segments; on a child match at depth `d`, the segment
`segments[N-(d+1)]` must equal the child's label — the index is
computed unconditionally, and Go panics when `N-(d+1)` is negative. -/
def matchSuffixStatics : List (String × Mux) → List String → Params → ScanOut
  | [], _, params => .cont params
  | (sp, sub) :: entries, segments, params =>
    match matchSuffix sub segments params with
    | .panicked params' => .panicked params'
    | .res none _ params' => matchSuffixStatics entries segments params'
    | .res (some hh) d params' =>
      if segments.length < d + 1 then .panicked params'
      else if segments.getD (segments.length - (d + 1)) "" ≠ sp then
        matchSuffixStatics entries segments params'
      else .found hh (d + 1) params'
termination_by entries _ _ => sizeOf entries

/-- The parameter loop of `matchSuffix`: on a child match the segment
at `segments[N-(d+1)]` (same panic caveat) is bound to the parameter
name unconditionally — the `TODO: might be rejected, might spam params`
site — and the match is returned. -/
def matchSuffixParams :
    List (String × Bool × Mux) → List String → Params → ScanOut
  | [], _, params => .cont params
  | (name, _, sub) :: ps, segments, params =>
    match matchSuffix sub segments params with
    | .panicked params' => .panicked params'
    | .res none _ params' => matchSuffixParams ps segments params'
    | .res (some hh) d params' =>
      if segments.length < d + 1 then .panicked params'
      else
        .found hh (d + 1)
          (Params.set params' name (segments.getD (segments.length - (d + 1)) ""))
termination_by ps _ _ => sizeOf ps
end

end Web

namespace Web

/-- `strings.TrimPrefix(uri, "/")`: drop one leading slash if present. -/
def trimSlash (s : String) : String :=
  if strHasPre s "/" then strDrop s 1 else s

/-- `matchPrefix` on a possibly-nil `*mux` (the function checks
`m == nil` first, so calling through a nil pointer is safe). -/
def matchPreOpt : Option Mux → List String → Params → MatchOut
  | none, _, params => .res none params
  | some m, segs, params => matchPre m segs params

/-- `mux.Match`: strip one leading slash, split on `/`, prefix-match. -/
def Mux.Match (m : Option Mux) (uri : String) (params : Params) : MatchOut :=
  matchPreOpt m (splitSlash (trimSlash uri)) params

/-- The `router` struct: sub-routers by prefix, per-method tries, the
wildcard-method trie, and whether a custom not-found handler is
installed. -/
inductive Router where
  | mk (subRouters : List (String × Router)) (byMethod : List (String × Mux))
      (anyMethod : Option Mux) (customNotFound : Bool)

/-- Whether a custom not-found handler is installed. -/
def Router.customNotFound : Router → Bool
  | .mk _ _ _ nf => nf

mutual
/-- `router.match`: uppercase the method; if a sub-router prefix
matches the path, strip it and recurse (prefixes cannot overlap, so at
most one applies); otherwise match the per-method trie (a missing
method yields a nil mux whose match finds nothing), then the
wildcard-method trie. -/
def routerMatch : Router → String → String → Params → MatchOut
  | .mk subs byMethod anyM _, method, uri, params =>
    let m := strToUpper method
    match routerMatchSubs subs m uri params with
    | some out => out
    | none =>
      match Mux.Match (lookupStatic byMethod m) uri params with
      | .panicked params' => .panicked params'
      | .res (some hh) params' => .res (some hh) params'
      | .res none params' => Mux.Match anyM uri params'
termination_by r _ _ _ => sizeOf r

/-- The sub-router loop of `router.match`. -/
def routerMatchSubs :
    List (String × Router) → String → String → Params → Option MatchOut
  | [], _, _, _ => none
  | (pfx, sub) :: rest, method, uri, params =>
    if strHasPre uri pfx then
      some (routerMatch sub method (strDrop uri pfx.length) params)
    else routerMatchSubs rest method uri params
termination_by subs _ _ _ => sizeOf subs
end

/-- Outcome of `router.ServeHTTP`: a handler served with its params,
the installed not-found handler, the built-in plain `404 Not found`,
or a panic escaping from matching. -/
inductive Served where
  | handled (h : Nat) (params : Params)
  | customNotFound
  | defaultNotFound
  | panicked
deriving DecidableEq, Repr

/-- `router.ServeHTTP`: match with a fresh `Params{}`; serve the
handler, else the installed not-found handler, else `http.Error 404`. -/
def serveHTTP (r : Router) (method uri : String) : Served :=
  match routerMatch r method uri [] with
  | .panicked _ => .panicked
  | .res (some h) params => .handled h params
  | .res none _ =>
    if r.customNotFound then .customNotFound else .defaultNotFound

mutual
/-- No route is registered anywhere in the router for the method: the
per-method map has no entry, there are no wildcard-method
registrations, and the same holds in every sub-router.  The method
string is normalised with `toUpper` exactly where `router.match`
normalises it. -/
def noRoutesFor : String → Router → Bool
  | method, .mk subs byMethod anyM _ =>
    let m := strToUpper method
    (lookupStatic byMethod m).isNone && anyM.isNone && noRoutesForList m subs
termination_by _ r => sizeOf r

/-- `noRoutesFor` over the sub-routers. -/
def noRoutesForList : String → List (String × Router) → Bool
  | _, [] => true
  | method, (_, sub) :: rest =>
    noRoutesFor method sub && noRoutesForList method rest
termination_by _ subs => sizeOf subs
end

end Web

namespace Web

/-! ### Claims C5, C6, C7: router registration and matching bugs -/

/-- Register two patterns in sequence on an empty trie (handlers 1 and
2), propagating a registration error from the first. -/
def regTwo (p1 p2 : String) : Except RegErr Mux :=
  match emptyMux.Register p1 1 with
  | .error e => .error e
  | .ok m1 => m1.Register p2 2

/-- Whether a registration succeeded. -/
def regOk : Except RegErr Mux → Bool
  | .ok _ => true
  | .error _ => false

/-- The trie produced by registering `/:g*/a/b ↦ 1`. -/
def c6trie : Mux :=
  .mk [] [("g", true, .mk [("a", .mk [("b", .mk [] [] (some 1))] [] none)] [] none)] none

/-- The trie produced by registering `/:g*/x ↦ 1` then `/:n/y/x ↦ 2`:
the greedy parameter child precedes the non-greedy one because the
children are kept in registration order. -/
def c6btrie : Mux :=
  .mk []
    [("g", true, .mk [("x", .mk [] [] (some 1))] [] none),
     ("n", false, .mk [("y", .mk [("x", .mk [] [] (some 2))] [] none)] [] none)]
    none

/-- The trie produced by registering only `/:n/y/x ↦ 2`. -/
def c6ntrie : Mux :=
  .mk [] [("n", false, .mk [("y", .mk [("x", .mk [] [] (some 2))] [] none)] [] none)] none

/-- The trie produced by registering `/:g*/a/:q ↦ 1` then `/:n/b/z ↦ 2`. -/
def c7trie : Mux :=
  .mk []
    [("g", true, .mk [("a", .mk [] [("q", false, .mk [] [] (some 1))] none)] [] none),
     ("n", false, .mk [("b", .mk [("z", .mk [] [] (some 2))] [] none)] [] none)]
    none

/-- C5: registration conflict detection is incomplete, refuting the
claim's "exactly when".  The `registerParam` branch that descends into
an existing parameter entry fails to record the entry in `seenParams`
and fails to set `seenGreedy`, so (1) `/:x/:x/z` registers fine after
`/:x/y` although it repeats the name `x` within one pattern, and (2)
`/:g*/:h*` registers fine after `/:g*/a` although it holds two greedy
parameters.  The error cases the claim names that the code does detect
are also established: a repeated name among fresh entries (3) and the
claim's own `/b/:b*/x` then `/b/:a*/x` ambiguity example (4). -/
theorem register_conflict_detection_incomplete :
    regOk (regTwo "/:x/y" "/:x/:x/z") = true ∧
    regOk (regTwo "/:g*/a" "/:g*/:h*") = true ∧
    emptyMux.Register "/a/:x/:x" 1 = .error (.paramTwice "x") ∧
    regTwo "/b/:b*/x" "/b/:a*/x" = .error .ambiguous := by
  refine ⟨?_, ?_, ?_, ?_⟩ <;>
    simp +decide [regOk, regTwo, Mux.Register, splitSlash, strDrop, splitChars,
      strHasPre, chHasPre, registerSegments, registerStatic, registerParam,
      scanParams, emptyMux, lookupStatic, setStatic, strHasSuffix, strDropLast,
      entryToInfo, checkAmbiguous]

/-- C6: matching does not follow the claimed strategy, two
counterexamples.  First, matching can panic rather than return: with
`/:g*/a/b ↦ 1` registered (conjunct 1 fixes the trie), the request
`/x/b` drives `matchSuffix` to index `segments[len-(d+1)]` with
`d+1 > len`, Go's index-out-of-range panic (conjunct 2).  Second,
parameter children are tried in registration order, not non-greedy
first: with `/:g*/x ↦ 1` registered before `/:n/y/x ↦ 2` (conjunct 3),
the request `/z/y/x` returns the greedy handler 1 with `g = z/y`
(conjunct 4), although the non-greedy route alone matches the same
path with handler 2 (conjunct 5). -/
theorem match_order_and_index_panic_cex :
    emptyMux.Register "/:g*/a/b" 1 = .ok c6trie ∧
    Mux.Match (some c6trie) "/x/b" [] = .panicked [] ∧
    regTwo "/:g*/x" "/:n/y/x" = .ok c6btrie ∧
    Mux.Match (some c6btrie) "/z/y/x" [] = .res (some 1) [("g", "z/y")] ∧
    Mux.Match (some c6ntrie) "/z/y/x" [] = .res (some 2) [("n", "z")] := by
  refine ⟨?_, ?_, ?_, ?_, ?_⟩ <;>
    simp +decide [regTwo, Mux.Register, splitSlash, strDrop, splitChars,
      strHasPre, chHasPre, registerSegments, registerStatic, registerParam,
      scanParams, emptyMux, lookupStatic, setStatic, strHasSuffix, strDropLast,
      entryToInfo, checkAmbiguous, c6trie, c6btrie, c6ntrie, Mux.Match,
      trimSlash, matchPreOpt, matchPre, matchPreStatic, matchPreParams,
      matchSuffix, matchSuffixStatics, matchSuffixParams, Params.set,
      joinSegs, joinChars]

/-- C7: parameter bindings written during a failed greedy attempt leak
into the map returned for a sibling non-greedy match, refuting the
claim.  With `/:g*/a/:q ↦ 1` then `/:n/b/z ↦ 2` registered (conjunct
1), the request `/p/b/z` first descends the greedy `:g*` subtree,
where `matchSuffixParams` binds `q ↦ z` before the attempt is
discarded; the sibling `/:n/b/z` then matches, yet the returned map is
`[(q, z), (n, p)]` (conjunct 2) — it contains the stale `q` binding, a
`get` on which succeeds (conjunct 3) instead of only the matched
pattern's `n ↦ p`. -/
theorem params_leak_from_failed_greedy_cex :
    regTwo "/:g*/a/:q" "/:n/b/z" = .ok c7trie ∧
    Mux.Match (some c7trie) "/p/b/z" [] = .res (some 2) [("q", "z"), ("n", "p")] ∧
    Params.get [("q", "z"), ("n", "p")] "q" = some "z" := by
  refine ⟨?_, ?_, ?_⟩ <;>
    simp +decide [regTwo, Mux.Register, splitSlash, strDrop, splitChars,
      strHasPre, chHasPre, registerSegments, registerStatic, registerParam,
      scanParams, emptyMux, lookupStatic, setStatic, strHasSuffix, strDropLast,
      entryToInfo, checkAmbiguous, c7trie, Mux.Match, trimSlash, matchPreOpt,
      matchPre, matchPreStatic, matchPreParams, matchSuffix,
      matchSuffixStatics, matchSuffixParams, Params.set, Params.get,
      joinSegs, joinChars]

end Web

namespace Web

/-! ### Claim C10: absent method never panics, responds not-found -/

/-- A sub-router of a router is structurally smaller than the router. -/
theorem sizeOf_sub_lt {pfx : String} {sub : Router}
    {subs : List (String × Router)} (h : (pfx, sub) ∈ subs)
    (byMethod : List (String × Mux)) (anyM : Option Mux) (nf : Bool) :
    sizeOf sub < sizeOf (Router.mk subs byMethod anyM nf) := by
  have h1 : sizeOf (pfx, sub) ≤ sizeOf subs := le_of_lt (List.sizeOf_lt_of_mem h)
  simp only [Prod.mk.sizeOf_spec, Router.mk.sizeOf_spec] at *
  omega

/-- If no route anywhere in the router serves the method, `match`
returns no handler and leaves the parameter map untouched: the absent
method's trie lookup yields `none`, `Mux.Match` on the nil mux finds
nothing, the wildcard trie is absent, and every applicable sub-router
behaves the same by induction on the router's size. -/
theorem noRoutes_match_aux :
    ∀ n, ∀ r : Router, sizeOf r ≤ n → ∀ method uri params,
      noRoutesFor method r = true →
      routerMatch r method uri params = MatchOut.res none params := by
  intro n
  induction n with
  | zero =>
    intro r hr
    cases r with
    | mk subs byMethod anyM nf =>
      simp [Router.mk.sizeOf_spec] at hr
  | succ n ih =>
    intro r hr method uri params hno
    cases r with
    | mk subs byMethod anyM nf =>
      rw [noRoutesFor] at hno
      simp only [Bool.and_eq_true, Option.isNone_iff_eq_none] at hno
      obtain ⟨⟨h1, h2⟩, h3⟩ := hno
      have hsubs : ∀ subs' : List (String × Router),
          (∀ pr, pr ∈ subs' → pr ∈ subs) →
          noRoutesForList (strToUpper method) subs' = true →
          ∀ uri',
            routerMatchSubs subs' (strToUpper method) uri' params = none ∨
            routerMatchSubs subs' (strToUpper method) uri' params =
              some (MatchOut.res none params) := by
        intro subs'
        induction subs' with
        | nil => intro _ _ uri'; left; rw [routerMatchSubs]
        | cons pr rest ihs =>
          intro hmem hlist uri'
          obtain ⟨pfx, sub⟩ := pr
          rw [noRoutesForList] at hlist
          simp only [Bool.and_eq_true] at hlist
          obtain ⟨hsub, hrest⟩ := hlist
          rw [routerMatchSubs]
          by_cases hp : strHasPre uri' pfx = true
          · right
            simp only [hp, if_true]
            have hsz : sizeOf sub ≤ n := by
              have := sizeOf_sub_lt (hmem (pfx, sub) (List.mem_cons_self _ _))
                byMethod anyM nf
              omega
            rw [ih sub hsz (strToUpper method) (strDrop uri' pfx.length) params hsub]
          · simp only [hp, if_false]
            exact ihs (fun pr hpr => hmem pr (List.mem_cons_of_mem _ hpr)) hrest uri'
      rw [routerMatch]
      rcases hsubs subs (fun _ h => h) h3 uri with hnone | hsome
      · rw [hnone, h1, h2]
        simp [Mux.Match, matchPreOpt]
      · rw [hsome]

/-- C10: serving a request whose method has no registered routes and
no wildcard-method registrations never panics.  For every router,
method and path: the match returns no handler with the fresh empty
`Params` untouched (conjunct 1), `ServeHTTP` neither panics (conjunct
2) nor serves any handler (conjunct 3), and it responds with the
installed not-found handler when one exists and the built-in `404 Not
found` otherwise (conjunct 4). -/
theorem absent_method_404 (r : Router) (method uri : String)
    (hno : noRoutesFor method r = true) :
    routerMatch r method uri [] = .res none [] ∧
    serveHTTP r method uri ≠ .panicked ∧
    (∀ h params, serveHTTP r method uri ≠ .handled h params) ∧
    serveHTTP r method uri =
      (if r.customNotFound then .customNotFound else .defaultNotFound) := by
  have hm := noRoutes_match_aux (sizeOf r) r le_rfl method uri [] hno
  have hs : serveHTTP r method uri =
      (if r.customNotFound then .customNotFound else .defaultNotFound) := by
    rw [serveHTTP, hm]
  refine ⟨hm, ?_, ?_, hs⟩
  · rw [hs]; split <;> simp
  · intro h params; rw [hs]; split <;> simp

/-- A sub-router with one GET route. -/
def c10sub : Router :=
  .mk [] [("GET", .mk [("a", .mk [] [] (some 7))] [] none)] none false

/-- A router with a GET route, a sub-router, no wildcard-method trie
and no custom not-found handler. -/
def c10router : Router :=
  .mk [("/api", c10sub)] [("GET", .mk [] [] (some 1))] none false

/-- Witness for C10 on a concrete router: a DELETE request (method
given in lower case) has no routes, matches nothing, and is answered
by the built-in 404. -/
theorem absent_method_404_witness :
    noRoutesFor "delete" c10router = true ∧
    routerMatch c10router "delete" "/a" [] = .res none [] ∧
    serveHTTP c10router "delete" "/a" =
      (if c10router.customNotFound then .customNotFound else .defaultNotFound) := by
  have h : noRoutesFor "delete" c10router = true := by
    simp +decide [noRoutesFor, noRoutesForList, c10router, c10sub,
      lookupStatic, strToUpper]
  have hc := absent_method_404 c10router "delete" "/a" h
  exact ⟨h, hc.1, hc.2.2.2⟩

end Web
